import Mathlib

/-!
# beetman: the skipped-album log parser

A shallow embedding of `internal/log/parser.go` and a verification of its
specification.

Go strings are modelled as lists of Unicode code points (`Str`); the log text
is taken to be valid UTF-8, on which the byte-level library functions used by
the parser (`strings.HasPrefix`, `strings.TrimPrefix`, `strings.Index`,
`strings.TrimSpace`, `filepath.Clean`, `strings.Split`) act as modelled below,
all their delimiters being ASCII.

The operating system and the line reader are the environment: opening a path
either fails with an error value or gives a file, and a `bufio.Scanner` over
that file delivers a finite sequence of lines and then reports its final
error status (`LogFile`); `NewScanner` gives what it delivers for a file
content whose reads do not fail.  A `panic` is an explicit outcome.
-/

namespace Beetman

/-- A Go string, as its sequence of code points. -/
abbrev Str := List Char

/-! ## Library functions used by the parser -/

/-- Go `strings.HasPrefix(s, pre)`: `s` begins with `pre`. -/
def HasPrefix (s pre : Str) : Bool :=
  pre.isPrefixOf s

/-- Go `strings.TrimPrefix(s, pre)`: `s` without the leading `pre`, or `s`
itself when it does not begin with `pre`. -/
def TrimPrefix (s pre : Str) : Str :=
  if HasPrefix s pre then s.drop pre.length else s

/-- Go `strings.Index(s, sub)`: the position of the first occurrence of `sub`
in `s`, or `-1` when there is none. -/
def Index : Str → Str → Int
  | [], sub => if sub = [] then 0 else -1
  | c :: cs, sub =>
    if sub.isPrefixOf (c :: cs) then 0
    else
      let r := Index cs sub
      if r < 0 then -1 else r + 1

/-- Go `unicode.IsSpace`: the code points with the White_Space property. -/
def isSpace (c : Char) : Bool :=
  let n := c.toNat
  (0x09 ≤ n && n ≤ 0x0D) || n == 0x20 || n == 0x85 || n == 0xA0 || n == 0x1680 ||
  (0x2000 ≤ n && n ≤ 0x200A) || n == 0x2028 || n == 0x2029 || n == 0x202F ||
  n == 0x205F || n == 0x3000

/-- Go `strings.TrimSpace(s)`: `s` without leading and trailing white space. -/
def TrimSpace (s : Str) : Str :=
  (s.dropWhile isSpace).rdropWhile isSpace

/-- The path elements of `path`: the pieces between `/` separators. -/
def elements : Str → List Str
  | [] => [[]]
  | c :: cs =>
    if c = '/' then [] :: elements cs
    else
      match elements cs with
      | [] => [[c]]
      | e :: es => (c :: e) :: es

/-- One path element processed by `filepath.Clean`.  `out` holds the elements
written so far, the last one first.  Empty and `.` elements are dropped; a `..`
element removes the element before it when that is a real element, is dropped
at the root of a rooted path, and is kept at the start of a relative path. -/
def cleanStep (rooted : Bool) (out : List Str) (e : Str) : List Str :=
  if e = [] then out
  else if e = ['.'] then out
  else if e = ['.', '.'] then
    match out with
    | [] => if rooted then [] else [e]
    | top :: rest => if !rooted && top = ['.', '.'] then e :: out else rest
  else e :: out

/-- Go `filepath.Clean(path)` with `/` as the separator: the shortest path
equivalent to `path` by purely lexical processing.  The empty path becomes
`.`; a rooted path stays rooted. -/
def Clean (path : Str) : Str :=
  match path with
  | [] => ['.']
  | c :: _ =>
    let rooted := c == '/'
    let out := (elements path).foldl (cleanStep rooted) []
    let body := ['/'].intercalate out.reverse
    if rooted then '/' :: body
    else if body = [] then ['.'] else body

/-- The loop of Go `strings.Split` for a non-empty separator: cut at the first
occurrence of `sep`, then go on with what follows it.  The first argument
bounds the number of cuts. -/
def splitLoop (sep : Str) : Nat → Str → List Str
  | 0, s => [s]
  | n + 1, s =>
    let m := Index s sep
    if m < 0 then [s]
    else s.take m.toNat :: splitLoop sep n (s.drop (m.toNat + sep.length))

/-- Go `strings.Split(s, sep)`: the substrings of `s` between the occurrences
of `sep`, found from the left and not overlapping.  With an empty separator the
string is cut after each code point.  A string of length `n` holds at most `n`
occurrences of a non-empty separator. -/
def Split (s sep : Str) : List Str :=
  if sep = [] then s.map (fun c => [c])
  else splitLoop sep s.length s

/-! ## The result map -/

/-- A Go `map[string]string`, as a list of entries with distinct keys. -/
abbrev SkipMap := List (Str × Str)

/-- The value `m[k]`, when `k` is present. -/
def SkipMap.get (m : SkipMap) (k : Str) : Option Str :=
  (m.find? (fun e => e.1 == k)).map Prod.snd

/-- The assignment `m[k] = v`: any earlier entry for `k` is replaced. -/
def SkipMap.set (m : SkipMap) (k v : Str) : SkipMap :=
  (k, v) :: m.filter (fun e => e.1 != k)

/-- The keys of `m`. -/
def SkipMap.keys (m : SkipMap) : List Str :=
  m.map Prod.fst

/-! ## The environment -/

/-- Error values of the operating system and of the line reader. -/
inductive IOErr where
  | ErrNotExist
  | ErrPermission
  | ErrTooLong
  | errno (n : Nat)
  deriving DecidableEq, Repr

/-- Go `os.IsNotExist(err)`. -/
def IsNotExist : IOErr → Bool
  | .ErrNotExist => true
  | _ => false

/-- What a `bufio.Scanner` over an opened log file delivers: the lines given
by the successive `Scan`/`Text` calls, and the final `Err()`. -/
structure LogFile where
  lines : List Str
  err : Option IOErr
  deriving DecidableEq, Repr

/-- The file system: what `os.Open` gives for each path. -/
abbrev FileSystem := Str → Except IOErr LogFile

/-! ## The parser -/

/-- An error made by `fmt.Errorf` with `%w`: a context message and the
wrapped cause. -/
structure Error where
  context : Str
  cause : IOErr
  deriving DecidableEq, Repr

/-- How a call of `ParseSkippedAlbums` ends: with a `panic`, or by returning
a map (`none` is the nil map) and an error (`none` is the nil error). -/
inductive Outcome where
  | panicked (value : Str)
  | returned (skipped : Option SkipMap) (err : Option Error)
  deriving DecidableEq, Repr

/-- The separator between the library directory and the album path. -/
def marker : Str := "/files/flac/".toList

/-- The parser of the log files; `albumsDir` is the base directory. -/
structure Parser where
  albumsDir : Str
  deriving DecidableEq, Repr

/-- Go `New`: a parser for the given base directory. -/
def New (albumsDir : Str) : Parser :=
  { albumsDir := Clean albumsDir }

/-- The prefix of the lines that report a duplicate. -/
def dupPrefix : Str := "duplicate-skip ".toList

/-- The prefix of the lines that report a missing match. -/
def skipPrefix : Str := "skip ".toList

/-- The path of a recognized line after its processing (parser.go, lines 51
to 56): cut at the first `;`, trimmed, and cleaned. -/
def cleanedPath (path : Str) : Str :=
  let idx := Index path [';']
  let path := if idx ≥ 0 then path.take idx.toNat else path
  let path := TrimSpace path
  Clean path

/-- The path handling of one recognized line (parser.go, lines 51 to 63):
the processed path is split at the marker.  The result is the second of
exactly two parts, or the value of the `panic`. -/
def relativePath (path : Str) : Except Str Str :=
  let path := cleanedPath path
  let parts := Split path marker
  match parts with
  | [_, rel] => .ok rel
  | _ => .error ("unexpected path: ".toList ++ path)

/-- The effect of one line of the log. -/
inductive LineResult where
  | ignored
  | fatal (value : Str)
  | record (path reason : Str)
  deriving DecidableEq, Repr

/-- The body of the scanning loop (parser.go, lines 38 to 65) on one line. -/
def processLine (line : Str) : LineResult :=
  if HasPrefix line dupPrefix then
    match relativePath (TrimPrefix line dupPrefix) with
    | .ok rel => .record rel "duplicate".toList
    | .error v => .fatal v
  else if HasPrefix line skipPrefix then
    match relativePath (TrimPrefix line skipPrefix) with
    | .ok rel => .record rel "no strong match".toList
    | .error v => .fatal v
  else .ignored

/-- The scanning loop over the lines the reader delivers, from the map
`skipped`: the final map, or the value of the `panic` that ended the loop. -/
def scanLoop : List Str → SkipMap → Except Str SkipMap
  | [], skipped => .ok skipped
  | line :: rest, skipped =>
    match processLine line with
    | .ignored => scanLoop rest skipped
    | .fatal v => .error v
    | .record path reason => scanLoop rest (skipped.set path reason)

/-- Go `(*Parser).ParseSkippedAlbums(logFile)` in the file system `fs`. -/
def Parser.ParseSkippedAlbums (_p : Parser) (fs : FileSystem) (logFile : Str) : Outcome :=
  match fs logFile with
  | .error err =>
    if IsNotExist err then .returned none none
    else .returned none (some ⟨"failed to open log file".toList, err⟩)
  | .ok file =>
    match scanLoop file.lines [] with
    | .error v => .panicked v
    | .ok skipped =>
      match file.err with
      | some err => .returned none (some ⟨"error reading log file".toList, err⟩)
      | none => .returned (some skipped) none

/-! ## Notions used in the statements -/

/-- The line starts with one of the two prefixes the parser knows. -/
def recognized (line : Str) : Bool :=
  HasPrefix line dupPrefix || HasPrefix line skipPrefix

/-- The number of positions of `s` at which `sub` occurs, overlapping
occurrences counted each. -/
def occurrences (sub : Str) : Str → Nat
  | [] => if sub = [] then 1 else 0
  | c :: cs => (if sub.isPrefixOf (c :: cs) then 1 else 0) + occurrences sub cs

/-- The string has no white space at its start or at its end. -/
def noOuterSpace (s : Str) : Prop :=
  (∀ c ∈ s.head?, isSpace c = false) ∧ (∀ c ∈ s.getLast?, isSpace c = false)

instance (s : Str) : Decidable (noOuterSpace s) := by
  unfold noOuterSpace
  infer_instance

/-- The text after the path of a log line: nothing, or `;` and an
annotation. -/
def annotationText : Option Str → Str
  | none => []
  | some t => ';' :: t

/-- Two lines that are equal, or that start with a known prefix and differ
only in the text after their first `;`. -/
def sameUpToAnnotation (l₁ l₂ : Str) : Prop :=
  l₁ = l₂ ∨
  (recognized l₁ = true ∧
    ∃ body t₁ t₂ : Str, ';' ∉ body ∧ l₁ = body ++ ';' :: t₁ ∧ l₂ = body ++ ';' :: t₂)

/-- No line of `lines` records an entry for the key `k`. -/
def noRecord (lines : List Str) (k : Str) : Prop :=
  ∀ l ∈ lines, ∀ r, processLine l ≠ .record k r

/-- The last line of `lines` whose extracted key is `k` carries the reason
`r`. -/
def lastRecord (lines : List Str) (k r : Str) : Prop :=
  ∃ (pre : List Str) (l : Str) (post : List Str),
    lines = pre ++ l :: post ∧ processLine l = .record k r ∧ noRecord post k

/-- The entry a line records, when it records one. -/
def entryOf (l : Str) : Option (Str × Str) :=
  match processLine l with
  | .record k r => some (k, r)
  | _ => none

/-- The keys extracted from the lines, one for each line that records an
entry, in the order of the lines. -/
def extractedKeys (lines : List Str) : List Str :=
  (lines.filterMap entryOf).map Prod.fst

/-- The right-biased union of two lookups: the value of the second map where
it has one, that of the first map elsewhere. -/
def unionGet (mA mB : SkipMap) (k : Str) : Option Str :=
  match mB.get k with
  | some r => some r
  | none => mA.get k

/-! ## The line reader -/

/-- The number of bytes of the UTF-8 encoding of `s`: the length of the Go
string. -/
def byteLen : Str → Nat
  | [] => 0
  | c :: cs => c.utf8Size + byteLen cs

/-- Go `bufio.MaxScanTokenSize`: the size of the largest buffer of a
`bufio.Scanner` that was given no buffer of its own. -/
def MaxScanTokenSize : Nat := 64 * 1024

/-- Go `dropCR` of `bufio.ScanLines`: the data without one trailing carriage
return. -/
def dropCR (data : Str) : Str :=
  if data.getLast? = some '\r' then data.dropLast else data

/-- The lines of a file content as `bufio.ScanLines` cuts them, before
`dropCR`: the text before each newline, and the text after the last newline
when there is some. -/
def rawLines : Str → List Str
  | [] => []
  | c :: cs =>
    if c = '\n' then [] :: rawLines cs
    else
      match rawLines cs with
      | [] => [[c]]
      | l :: ls => (c :: l) :: ls

/-- The tokens a `bufio.Scanner` with `bufio.ScanLines` delivers for the given
raw lines when no read fails.  A line is found only while it fits, with its
newline, into the buffer of `MaxScanTokenSize` bytes (and a last line without
newline only while it leaves the buffer unfilled): a longer line ends the scan
with `bufio.ErrTooLong`, after the lines before it were delivered. -/
def scanTokens : List Str → LogFile
  | [] => ⟨[], none⟩
  | raw :: rest =>
    if byteLen raw < MaxScanTokenSize then
      ⟨dropCR raw :: (scanTokens rest).lines, (scanTokens rest).err⟩
    else ⟨[], some .ErrTooLong⟩

/-- Go `bufio.NewScanner(file)` followed by the `Scan`/`Text` loop and `Err()`,
for a file with the given content whose reads do not fail. -/
def NewScanner (content : Str) : LogFile :=
  scanTokens (rawLines content)

/-! ## Path elements in the statements -/

/-- A real path element: not empty, not `.`, not `..`, and without `/`. -/
def realElement (e : Str) : Prop :=
  e ≠ [] ∧ e ≠ ['.'] ∧ e ≠ ['.', '.'] ∧ '/' ∉ e

instance (e : Str) : Decidable (realElement e) := by
  unfold realElement
  infer_instance

/-! ## Facts about the library functions -/

theorem Index_ge_neg_one (sub : Str) : ∀ s : Str, -1 ≤ Index s sub
  | [] => by unfold Index; split <;> simp
  | c :: cs => by
    have ih := Index_ge_neg_one sub cs
    unfold Index
    split
    · simp
    · simp only
      split <;> omega

theorem Index_char_of_not_mem (c : Char) : ∀ s : Str, c ∉ s → Index s [c] = -1
  | [], _ => by simp [Index]
  | d :: ds, h => by
    have hd : c ≠ d := fun e => h (by simp [e])
    have ih := Index_char_of_not_mem c ds (fun e => h (List.mem_cons_of_mem _ e))
    simp [Index, List.isPrefixOf, hd, ih]

theorem Index_char_append (c : Char) (t : Str) :
    ∀ s : Str, c ∉ s → Index (s ++ c :: t) [c] = s.length
  | [], _ => by simp [Index, List.isPrefixOf]
  | d :: ds, h => by
    have hd : c ≠ d := fun e => h (by simp [e])
    have ih := Index_char_append c t ds (fun e => h (List.mem_cons_of_mem _ e))
    simp only [List.cons_append, Index, List.isPrefixOf, ih]
    simp [hd]
    omega

theorem TrimSpace_eq_self (s : Str) (h : noOuterSpace s) : TrimSpace s = s := by
  obtain ⟨h1, h2⟩ := h
  have e1 : s.dropWhile isSpace = s := by
    cases s with
    | nil => rfl
    | cons c cs => simp [List.dropWhile, h1 c (by simp)]
  unfold TrimSpace
  rw [e1, List.rdropWhile_eq_self_iff]
  intro hl
  have := h2 (s.getLast hl) (by simp [List.getLast?_eq_getLast _ hl])
  simp [this]

/-- The path and its annotation: the processed path ignores the annotation. -/
theorem cleanedPath_annotated (path : Str) (t : Option Str) (h : ';' ∉ path) :
    cleanedPath (path ++ annotationText t) = Clean (TrimSpace path) := by
  cases t with
  | none => simp [cleanedPath, annotationText, Index_char_of_not_mem _ _ h]
  | some t => simp [cleanedPath, annotationText, Index_char_append _ t _ h]

theorem HasPrefix_append (pre rest : Str) : HasPrefix (pre ++ rest) pre = true := by
  simp [HasPrefix]

theorem TrimPrefix_append (pre rest : Str) : TrimPrefix (pre ++ rest) pre = rest := by
  simp [TrimPrefix, HasPrefix_append]

theorem skip_not_dup (rest : Str) : HasPrefix (skipPrefix ++ rest) dupPrefix = false := by
  have e1 : skipPrefix = ['s', 'k', 'i', 'p', ' '] := rfl
  have e2 : dupPrefix = 'd' :: "uplicate-skip ".toList := rfl
  rw [e1, e2]
  simp [HasPrefix, List.isPrefixOf]

theorem processLine_skip (rest : Str) :
    processLine (skipPrefix ++ rest) =
      match relativePath rest with
      | .ok rel => .record rel "no strong match".toList
      | .error v => .fatal v := by
  simp [processLine, skip_not_dup, HasPrefix_append, TrimPrefix_append]

theorem processLine_dup (rest : Str) :
    processLine (dupPrefix ++ rest) =
      match relativePath rest with
      | .ok rel => .record rel "duplicate".toList
      | .error v => .fatal v := by
  simp [processLine, HasPrefix_append, TrimPrefix_append]

theorem relativePath_of_split (x a : Str) (t : Option Str)
    (hclean : Clean (x ++ marker ++ a) = x ++ marker ++ a)
    (hsemi : ';' ∉ x ++ marker ++ a)
    (hspace : noOuterSpace (x ++ marker ++ a))
    (hsplit : Split (x ++ marker ++ a) marker = [x, a]) :
    relativePath (x ++ marker ++ a ++ annotationText t) = .ok a := by
  unfold relativePath
  simp only [cleanedPath_annotated _ t hsemi, TrimSpace_eq_self _ hspace, hclean, hsplit]

/-! ## Logs of a single line -/

/-- A log whose reader delivers the single line `"skip " ++ path`, followed by
nothing or by `;` and any annotation, and reports no failure: for a path
`x ++ "/files/flac/" ++ a` in clean form, without `;`, without outer white
space, that splits at the marker into `x` and `a`, the result is the one-entry
map `a ↦ "no strong match"` and the nil error. -/
theorem scan_of_delivered_skip_line (p : Parser) (fs : FileSystem)
    (logFile x a : Str) (t : Option Str)
    (hclean : Clean (x ++ marker ++ a) = x ++ marker ++ a)
    (hsemi : ';' ∉ x ++ marker ++ a)
    (hspace : noOuterSpace (x ++ marker ++ a))
    (hsplit : Split (x ++ marker ++ a) marker = [x, a])
    (hfile : fs logFile =
      .ok ⟨[skipPrefix ++ (x ++ marker ++ a ++ annotationText t)], none⟩) :
    p.ParseSkippedAlbums fs logFile =
      .returned (some [(a, "no strong match".toList)]) none := by
  unfold Parser.ParseSkippedAlbums
  rw [hfile]
  simp only [scanLoop, processLine_skip,
    relativePath_of_split x a t hclean hsemi hspace hsplit]
  rfl

/-- A log whose reader delivers the single line `"duplicate-skip " ++ path`
and reports no failure: for a path `x ++ "/files/flac/" ++ a` in clean form,
without `;`, without outer white space, that splits at the marker into `x` and
`a`, the result is the one-entry map `a ↦ "duplicate"` and the nil error. -/
theorem scan_of_delivered_duplicate_skip_line (p : Parser) (fs : FileSystem)
    (logFile x a : Str)
    (hclean : Clean (x ++ marker ++ a) = x ++ marker ++ a)
    (hsemi : ';' ∉ x ++ marker ++ a)
    (hspace : noOuterSpace (x ++ marker ++ a))
    (hsplit : Split (x ++ marker ++ a) marker = [x, a])
    (hfile : fs logFile = .ok ⟨[dupPrefix ++ (x ++ marker ++ a)], none⟩) :
    p.ParseSkippedAlbums fs logFile =
      .returned (some [(a, "duplicate".toList)]) none := by
  have h := relativePath_of_split x a none hclean hsemi hspace hsplit
  simp only [annotationText, List.append_nil] at h
  unfold Parser.ParseSkippedAlbums
  rw [hfile]
  simp only [scanLoop, processLine_dup, h]
  rfl

/-! ## Unrecognized lines -/

theorem processLine_unrecognized (line : Str) (h : recognized line = false) :
    processLine line = .ignored := by
  simp only [recognized, Bool.or_eq_false_iff] at h
  simp [processLine, h.1, h.2]

theorem scanLoop_filter_recognized :
    ∀ (lines : List Str) (skipped : SkipMap),
      scanLoop (lines.filter recognized) skipped = scanLoop lines skipped
  | [], _ => rfl
  | line :: rest, skipped => by
    cases h : recognized line with
    | false =>
      rw [List.filter_cons_of_neg (by simp [h])]
      simp only [scanLoop, processLine_unrecognized line h]
      exact scanLoop_filter_recognized rest skipped
    | true =>
      rw [List.filter_cons_of_pos h]
      simp only [scanLoop]
      cases processLine line with
      | ignored => exact scanLoop_filter_recognized rest skipped
      | fatal v => rfl
      | record path reason => exact scanLoop_filter_recognized rest _

set_option maxRecDepth 100000 in
/-- C3: a line that starts with neither `"duplicate-skip "` nor `"skip "` is
ignored, and for every list of lines the reader delivers `ParseSkippedAlbums`
has the same outcome (map, error or panic) as on the list without the
unrecognized lines.  The log `skip /lib/files/flac/album1; x`,
`added /lib/files/flac/album2`, `skip /lib/files/flac/album3; y` gives exactly
the two entries `album1 ↦ "no strong match"` and `album3 ↦ "no strong match"`. -/
theorem unrecognized_lines_have_no_effect :
    (∀ line : Str, recognized line = false → processLine line = .ignored) ∧
    (∀ (p : Parser) (logFile : Str) (lines : List Str) (err : Option IOErr),
      p.ParseSkippedAlbums (fun _ => .ok ⟨lines, err⟩) logFile =
        p.ParseSkippedAlbums (fun _ => .ok ⟨lines.filter recognized, err⟩) logFile) ∧
    (∀ (p : Parser) (logFile : Str),
      p.ParseSkippedAlbums
          (fun _ => .ok ⟨["skip /lib/files/flac/album1; x".toList,
            "added /lib/files/flac/album2".toList,
            "skip /lib/files/flac/album3; y".toList], none⟩) logFile =
        .returned (some [("album3".toList, "no strong match".toList),
          ("album1".toList, "no strong match".toList)]) none) := by
  refine ⟨processLine_unrecognized, ?_, ?_⟩
  · intro p logFile lines err
    simp only [Parser.ParseSkippedAlbums, scanLoop_filter_recognized]
  · intro p logFile
    simp only [Parser.ParseSkippedAlbums]
    decide

/-! ## Occurrences, `Index` and `Split` -/

theorem Index_nonneg_isPrefix (sub : Str) :
    ∀ s : Str, 0 ≤ Index s sub → sub <+: s.drop (Index s sub).toNat
  | [], h => by
    unfold Index at h ⊢
    split at h
    · simp_all
    · omega
  | c :: cs, h => by
    have ih := Index_nonneg_isPrefix sub cs
    unfold Index at h ⊢
    split at h
    · rename_i hp
      simp only [hp, if_true]
      simpa using hp
    · rename_i hp
      simp only [hp] at h ⊢
      simp only [Bool.false_eq_true, if_false] at h ⊢
      split at h
      · omega
      · rename_i hr
        have hr0 : 0 ≤ Index cs sub := by omega
        simp only [hr, if_false]
        have e : (Index cs sub + 1).toNat = (Index cs sub).toNat + 1 := by omega
        rw [e, List.drop_succ_cons]
        exact ih hr0

theorem occurrences_of_Index_neg (sub : Str) :
    ∀ s : Str, Index s sub < 0 → occurrences sub s = 0
  | [], h => by
    unfold Index at h
    unfold occurrences
    split at h
    · omega
    · rename_i hs
      simp [hs]
  | c :: cs, h => by
    have ih := occurrences_of_Index_neg sub cs
    unfold Index at h
    unfold occurrences
    split at h
    · omega
    · rename_i hp
      simp only at h
      split at h
      · rename_i hr
        simp [hp, ih hr]
      · have := Index_ge_neg_one sub cs
        omega

theorem occurrences_drop_Index (sub : Str) :
    ∀ s : Str, 0 ≤ Index s sub →
      occurrences sub (s.drop (Index s sub).toNat) = occurrences sub s
  | [], _ => by simp
  | c :: cs, h => by
    have ih := occurrences_drop_Index sub cs
    unfold Index at h ⊢
    split at h
    · rename_i hp
      simp [hp]
    · rename_i hp
      simp only [hp] at h ⊢
      simp only [Bool.false_eq_true, if_false] at h ⊢
      split at h
      · omega
      · rename_i hr
        have hr0 : 0 ≤ Index cs sub := by omega
        simp only [hr, if_false]
        have e : (Index cs sub + 1).toNat = (Index cs sub).toNat + 1 := by omega
        rw [e, List.drop_succ_cons, ih hr0]
        conv_rhs => unfold occurrences
        simp [hp]

theorem occurrences_le_append (sub : Str) (s : Str) :
    ∀ u : Str, occurrences sub s ≤ occurrences sub (u ++ s)
  | [] => by simp
  | c :: u => by
    have ih := occurrences_le_append sub s u
    simp only [List.cons_append]
    conv_rhs => unfold occurrences
    omega

theorem occurrences_pos_of_isPrefix (sub s : Str) (h : sub <+: s) :
    1 ≤ occurrences sub s := by
  cases s with
  | nil =>
    have : sub = [] := List.prefix_nil.mp h
    simp [occurrences, this]
  | cons c cs =>
    unfold occurrences
    have : sub.isPrefixOf (c :: cs) = true := by simpa using h
    simp [this]

theorem occurrences_pos_of_isInfix (sub s : Str) (h : sub <:+: s) :
    1 ≤ occurrences sub s := by
  obtain ⟨u, w, rfl⟩ := h
  have h1 := occurrences_pos_of_isPrefix sub (sub ++ w) (List.prefix_append _ _)
  have h2 := occurrences_le_append sub (sub ++ w) u
  simp only [List.append_assoc] at h2 ⊢
  omega

theorem Index_neg_iff_occurrences (sub s : Str) :
    Index s sub < 0 ↔ occurrences sub s = 0 := by
  constructor
  · exact occurrences_of_Index_neg sub s
  · intro h
    by_contra hn
    have h0 : 0 ≤ Index s sub := by omega
    have h1 := occurrences_pos_of_isPrefix _ _ (Index_nonneg_isPrefix sub s h0)
    rw [occurrences_drop_Index sub s h0] at h1
    omega

theorem Index_le_of_append (sub w : Str) :
    ∀ u : Str, 0 ≤ Index (u ++ sub ++ w) sub ∧ Index (u ++ sub ++ w) sub ≤ u.length
  | [] => by
    have h : ¬ Index (sub ++ w) sub < 0 := by
      rw [Index_neg_iff_occurrences]
      have := occurrences_pos_of_isPrefix sub (sub ++ w) (List.prefix_append _ _)
      omega
    cases hs : sub ++ w with
    | nil =>
      obtain ⟨h1, h2⟩ := List.append_eq_nil.mp hs
      subst h1 h2
      simp [Index]
    | cons c cs =>
      have hp : sub.isPrefixOf (c :: cs) = true := by
        rw [← hs]; simp
      simp [Index, hp, hs]
  | c :: u => by
    have ih := Index_le_of_append sub w u
    simp only [List.cons_append, List.length_cons]
    unfold Index
    split
    · simp only [Int.le_refl, true_and]
      omega
    · simp only
      split
      · omega
      · constructor
        · omega
        · push_cast
          omega

theorem splitLoop_of_Index_neg (sep : Str) (n : Nat) (s : Str) (h : Index s sep < 0) :
    splitLoop sep n s = [s] := by
  cases n with
  | zero => rfl
  | succ n => simp [splitLoop, h]

theorem splitLoop_length_pos (sep : Str) : ∀ (n : Nat) (s : Str), 1 ≤ (splitLoop sep n s).length
  | 0, _ => by simp [splitLoop]
  | n + 1, s => by
    unfold splitLoop
    simp only
    split <;> simp

theorem Split_of_occurrences_zero (sep s : Str) (hsep : sep ≠ [])
    (h : occurrences sep s = 0) : Split s sep = [s] := by
  simp only [Split, hsep, if_false]
  exact splitLoop_of_Index_neg sep _ s ((Index_neg_iff_occurrences sep s).mpr h)

theorem occurrences_cons_of_isPrefix (sub : Str) (c : Char) (cs : Str)
    (h : sub <+: c :: cs) : occurrences sub (c :: cs) = 1 + occurrences sub cs := by
  have : sub.isPrefixOf (c :: cs) = true := by simpa using h
  conv_lhs => unfold occurrences
  simp [this]

/-- A separator that occurs at exactly one position is where `Split` cuts. -/
theorem Split_of_occurrences_one (sep x a : Str) (hsep : sep ≠ [])
    (h : occurrences sep (x ++ sep ++ a) = 1) : Split (x ++ sep ++ a) sep = [x, a] := by
  obtain ⟨d, sep', rfl⟩ := List.exists_cons_of_ne_nil hsep
  obtain ⟨h0, hle⟩ := Index_le_of_append (d :: sep') a x
  have hpre := Index_nonneg_isPrefix (d :: sep') _ h0
  have hocc := occurrences_drop_Index (d :: sep') _ h0
  rw [h] at hocc
  generalize hi : (Index (x ++ d :: sep' ++ a) (d :: sep')).toNat = i at hpre hocc
  have hix : i ≤ x.length := by omega
  -- the first occurrence is the one after `x`
  have hdrop : (x ++ d :: sep' ++ a).drop i = x.drop i ++ (d :: sep' ++ a) := by
    rw [List.append_assoc, List.drop_append_of_le_length hix]
  have hieq : i = x.length := by
    by_contra hne
    have hlt : i < x.length := by omega
    obtain ⟨e, rest, hx⟩ : ∃ e rest, x.drop i = e :: rest := by
      cases hd : x.drop i with
      | nil =>
        have := List.drop_eq_nil_iff.mp hd
        omega
      | cons e rest => exact ⟨e, rest, rfl⟩
    rw [hdrop, hx, List.cons_append] at hpre hocc
    rw [occurrences_cons_of_isPrefix _ _ _ hpre] at hocc
    have := occurrences_pos_of_isInfix (d :: sep') (rest ++ (d :: sep' ++ a))
      ⟨rest, a, by simp⟩
    omega
  subst hieq
  rw [hdrop, List.drop_length, List.nil_append, List.cons_append] at hocc
  rw [occurrences_cons_of_isPrefix _ _ _ (by simp)] at hocc
  have ha : occurrences (d :: sep') a = 0 := by
    have := occurrences_le_append (d :: sep') a sep'
    omega
  have hneg := (Index_neg_iff_occurrences (d :: sep') a).mpr ha
  have hlen : (x ++ d :: sep' ++ a).length = (x.length + sep'.length + a.length) + 1 := by
    simp
    omega
  have hm : ¬ Index (x ++ d :: sep' ++ a) (d :: sep') < 0 := by omega
  simp only [Split, reduceCtorEq, if_false, hlen, splitLoop, hm, hi]
  rw [List.append_assoc, List.take_left, ← List.drop_drop, List.drop_left]
  have : (d :: sep' ++ a).drop (d :: sep').length = a := List.drop_left _ _
  rw [this, splitLoop_of_Index_neg _ _ _ hneg]

/-- Two occurrences of the separator that do not overlap give at least three
parts. -/
theorem Split_length_of_two (sep u v w : Str) (hsep : sep ≠ []) :
    3 ≤ (Split (u ++ sep ++ v ++ sep ++ w) sep).length := by
  obtain ⟨h0, hle⟩ := Index_le_of_append sep (v ++ sep ++ w) u
  have e1 : u ++ sep ++ (v ++ sep ++ w) = u ++ sep ++ v ++ sep ++ w := by simp
  rw [e1] at h0 hle
  generalize hs : u ++ sep ++ v ++ sep ++ w = s at h0 hle
  have hseplen : 1 ≤ sep.length := List.length_pos.mpr hsep
  have hlen : s.length = (s.length - 2) + 2 := by
    have : s.length = u.length + sep.length + v.length + sep.length + w.length := by
      rw [← hs]; simp only [List.length_append]
    omega
  generalize hi : (Index s sep).toNat = i
  have hix : i ≤ u.length := by omega
  have hrest : s.drop (i + sep.length) =
      (u ++ sep ++ v).drop (i + sep.length) ++ (sep ++ w) := by
    rw [← hs, List.append_assoc (u ++ sep ++ v), List.drop_append_of_le_length]
    simp
    omega
  have h2 : ¬ Index (s.drop (i + sep.length)) sep < 0 := by
    rw [Index_neg_iff_occurrences, hrest]
    have := occurrences_pos_of_isInfix sep
      ((u ++ sep ++ v).drop (i + sep.length) ++ (sep ++ w))
      ⟨(u ++ sep ++ v).drop (i + sep.length), w, by simp⟩
    omega
  have h1 : ¬ Index s sep < 0 := by omega
  simp only [Split, hsep, if_false]
  rw [hlen]
  simp only [splitLoop, h1, if_false, hi, h2, List.length_cons]
  have := splitLoop_length_pos sep (s.length - 2)
    ((s.drop (i + sep.length)).drop
      ((Index (s.drop (i + sep.length)) sep).toNat + sep.length))
  omega

theorem marker_ne_nil : marker ≠ [] := by decide

theorem relativePath_of_length_ne_two (path : Str)
    (h : (Split (cleanedPath path) marker).length ≠ 2) :
    relativePath path = .error ("unexpected path: ".toList ++ cleanedPath path) := by
  unfold relativePath
  simp only
  split
  · rename_i heq
    simp [heq] at h
  · rfl

/-! ## The marker in the processed path -/

theorem scanLoop_fatal (line : Str) (post : List Str) (v : Str)
    (h : processLine line = .fatal v) :
    ∀ (pre : List Str) (skipped : SkipMap),
      ∃ v', scanLoop (pre ++ line :: post) skipped = .error v'
  | [], skipped => ⟨v, by simp [scanLoop, h]⟩
  | l :: pre, skipped => by
    simp only [List.cons_append, scanLoop]
    cases processLine l with
    | ignored => exact scanLoop_fatal line post v h pre skipped
    | fatal v' => exact ⟨v', rfl⟩
    | record path reason => exact scanLoop_fatal line post v h pre _

theorem processLine_fatal_of_length_ne_two (line rest : Str)
    (hline : line = dupPrefix ++ rest ∨ line = skipPrefix ++ rest)
    (h : (Split (cleanedPath rest) marker).length ≠ 2) :
    processLine line = .fatal ("unexpected path: ".toList ++ cleanedPath rest) := by
  rcases hline with rfl | rfl
  · rw [processLine_dup, relativePath_of_length_ne_two rest h]
  · rw [processLine_skip, relativePath_of_length_ne_two rest h]

set_option maxRecDepth 100000 in
/-- C4, the claim as stated fails: the processed path
`/a/files/flac/files/flac/b` holds the marker at two positions (they share a
`/`), and `ParseSkippedAlbums` does not panic on `skip /a/files/flac/files/flac/b`
but returns the entry `files/flac/b ↦ "no strong match"`. -/
theorem overlapping_markers_are_not_fatal :
    occurrences marker (cleanedPath "/a/files/flac/files/flac/b".toList) = 2 ∧
    (New "/a".toList).ParseSkippedAlbums
        (fun _ => .ok ⟨["skip /a/files/flac/files/flac/b".toList], none⟩)
        "beet.log".toList =
      .returned (some [("files/flac/b".toList, "no strong match".toList)]) none := by
  decide

/-- C4, amended: if the processed path of a line that starts with
`"duplicate-skip "` or `"skip "` holds the marker nowhere, or holds it at two
places that do not overlap, then `ParseSkippedAlbums` panics, whatever lines
the reader delivers before and after that line: no map and no error is
returned. -/
theorem malformed_path_panics (p : Parser) (fs : FileSystem) (logFile : Str)
    (file : LogFile) (pre post : List Str) (line rest : Str)
    (hfile : fs logFile = .ok file)
    (hlines : file.lines = pre ++ line :: post)
    (hline : line = dupPrefix ++ rest ∨ line = skipPrefix ++ rest)
    (hbad : occurrences marker (cleanedPath rest) = 0 ∨
      ∃ u v w, cleanedPath rest = u ++ marker ++ v ++ marker ++ w) :
    ∃ value, p.ParseSkippedAlbums fs logFile = .panicked value := by
  have hlen : (Split (cleanedPath rest) marker).length ≠ 2 := by
    rcases hbad with h0 | ⟨u, v, w, huvw⟩
    · rw [Split_of_occurrences_zero _ _ marker_ne_nil h0]
      simp
    · have := Split_length_of_two marker u v w marker_ne_nil
      rw [huvw]
      omega
  obtain ⟨v', hv'⟩ := scanLoop_fatal line post _
    (processLine_fatal_of_length_ne_two line rest hline hlen) pre []
  refine ⟨v', ?_⟩
  unfold Parser.ParseSkippedAlbums
  rw [hfile]
  simp only [hlines, hv']

set_option maxRecDepth 100000 in
/-- A valid line followed by `skip /music/album2`, whose path has no marker. -/
theorem malformed_path_panics_witness :
    ∃ value, (New "/lib/files/flac".toList).ParseSkippedAlbums
        (fun _ => .ok ⟨["skip /lib/files/flac/album1".toList,
          "skip /music/album2".toList], some .ErrPermission⟩)
        "beet.log".toList = .panicked value :=
  malformed_path_panics (New "/lib/files/flac".toList)
    (fun _ => .ok ⟨["skip /lib/files/flac/album1".toList,
      "skip /music/album2".toList], some .ErrPermission⟩)
    "beet.log".toList
    ⟨["skip /lib/files/flac/album1".toList, "skip /music/album2".toList],
      some .ErrPermission⟩
    ["skip /lib/files/flac/album1".toList] [] "skip /music/album2".toList
    "/music/album2".toList rfl rfl (Or.inr rfl) (Or.inl (by decide))

set_option maxRecDepth 100000 in
/-- C5, the claim as stated fails: the paths `/x/files/flac/a/` and
`/x/files/flac/a/..` hold the marker exactly once, have no `;` and no outer
white space; for the first the recorded key is `a`, not the text `a/` after
the marker, and on the second the scan panics. -/
theorem unclean_path_key_differs :
    occurrences marker "/x/files/flac/a/".toList = 1 ∧
    processLine "skip /x/files/flac/a/".toList =
      .record "a".toList "no strong match".toList ∧
    occurrences marker "/x/files/flac/a/..".toList = 1 ∧
    processLine "duplicate-skip /x/files/flac/a/..".toList =
      .fatal "unexpected path: /x/files/flac".toList := by
  decide

/-- C5, amended: for a path that holds the marker at exactly one position,
has no `;`, has no white space at either end and is already in clean form,
the lines `"skip " ++ path` and `"duplicate-skip " ++ path` do not make the
scan panic, and the key they record is everything in the path after the
marker. -/
theorem clean_path_key_is_text_after_marker (x a : Str)
    (honce : occurrences marker (x ++ marker ++ a) = 1)
    (hsemi : ';' ∉ x ++ marker ++ a)
    (hspace : noOuterSpace (x ++ marker ++ a))
    (hclean : Clean (x ++ marker ++ a) = x ++ marker ++ a) :
    processLine (skipPrefix ++ (x ++ marker ++ a)) =
      .record a "no strong match".toList ∧
    processLine (dupPrefix ++ (x ++ marker ++ a)) = .record a "duplicate".toList := by
  have h := relativePath_of_split x a none hclean hsemi hspace
    (Split_of_occurrences_one marker x a marker_ne_nil honce)
  simp only [annotationText, List.append_nil] at h
  rw [processLine_skip, processLine_dup, h]
  exact ⟨rfl, rfl⟩

set_option maxRecDepth 100000 in
/-- The path `/music/files/flac/artist/album one`. -/
theorem clean_path_key_is_text_after_marker_witness :
    processLine (skipPrefix ++ ("/music".toList ++ marker ++ "artist/album one".toList)) =
      .record "artist/album one".toList "no strong match".toList ∧
    processLine (dupPrefix ++ ("/music".toList ++ marker ++ "artist/album one".toList)) =
      .record "artist/album one".toList "duplicate".toList :=
  clean_path_key_is_text_after_marker "/music".toList "artist/album one".toList
    (by decide) (by decide) (by decide) (by decide)

/-! ## The base directory and the annotation -/

set_option maxRecDepth 100000 in
/-- C6, the behaviour of the code: with the base directory `/music`, the line
`skip /music/album1` makes `ParseSkippedAlbums` panic instead of recording the
key `album1`; and with the base directory `/lib` the line
`skip /lib/files/flac/album1` records the key `album1`, not the path
`files/flac/album1` that is left when `/lib/` is removed. -/
theorem base_directory_is_not_stripped :
    (New "/music".toList).ParseSkippedAlbums
        (fun _ => .ok ⟨["skip /music/album1".toList], none⟩) "beet.log".toList =
      .panicked "unexpected path: /music/album1".toList ∧
    (New "/lib".toList).ParseSkippedAlbums
        (fun _ => .ok ⟨["skip /lib/files/flac/album1".toList], none⟩) "beet.log".toList =
      .returned (some [("album1".toList, "no strong match".toList)]) none := by
  decide

theorem relativePath_annotated (path t : Str) (h : ';' ∉ path) :
    relativePath (path ++ ';' :: t) = relativePath path := by
  have h1 := cleanedPath_annotated path (some t) h
  have h2 := cleanedPath_annotated path none h
  simp only [annotationText, List.append_nil] at h1 h2
  unfold relativePath
  rw [h1, h2]

theorem isPrefixOf_append_semicolon (t : Str) :
    ∀ (pre body : Str), ';' ∉ pre →
      pre.isPrefixOf (body ++ ';' :: t) = pre.isPrefixOf body
  | [], _, _ => by simp
  | a :: pre, [], h => by
    have ha : a ≠ ';' := fun e => h (by simp [e])
    simp [List.isPrefixOf, ha]
  | a :: pre, b :: body, h => by
    have ih := isPrefixOf_append_semicolon t pre body (fun e => h (List.mem_cons_of_mem _ e))
    simp only [List.cons_append, List.isPrefixOf]
    change (a == b && pre.isPrefixOf (body ++ ';' :: t)) = _
    rw [ih]

theorem HasPrefix_dup_annotated (body t : Str) :
    HasPrefix (body ++ ';' :: t) dupPrefix = HasPrefix body dupPrefix :=
  isPrefixOf_append_semicolon t dupPrefix body (by decide)

theorem HasPrefix_skip_annotated (body t : Str) :
    HasPrefix (body ++ ';' :: t) skipPrefix = HasPrefix body skipPrefix :=
  isPrefixOf_append_semicolon t skipPrefix body (by decide)

theorem eq_append_of_HasPrefix (s pre : Str) (h : HasPrefix s pre = true) :
    ∃ rest, s = pre ++ rest := by
  obtain ⟨rest, hr⟩ := List.isPrefixOf_iff_prefix.mp h
  exact ⟨rest, hr.symm⟩

/-- The text after the first `;` of a line has no effect on what the line
does. -/
theorem processLine_annotated (body t : Str) (h : ';' ∉ body) :
    processLine (body ++ ';' :: t) = processLine body := by
  cases hd : HasPrefix body dupPrefix with
  | true =>
    obtain ⟨rest, rfl⟩ := eq_append_of_HasPrefix _ _ hd
    have hrest : ';' ∉ rest := fun e => h (List.mem_append_right _ e)
    rw [List.append_assoc, processLine_dup, processLine_dup,
      relativePath_annotated rest t hrest]
  | false =>
    cases hs : HasPrefix body skipPrefix with
    | true =>
      obtain ⟨rest, rfl⟩ := eq_append_of_HasPrefix _ _ hs
      have hrest : ';' ∉ rest := fun e => h (List.mem_append_right _ e)
      rw [List.append_assoc, processLine_skip, processLine_skip,
        relativePath_annotated rest t hrest]
    | false =>
      rw [processLine_unrecognized body (by simp [recognized, hd, hs]),
        processLine_unrecognized _ (by
          simp [recognized, HasPrefix_dup_annotated, HasPrefix_skip_annotated, hd, hs])]

theorem processLine_sameUpToAnnotation (l₁ l₂ : Str) (h : sameUpToAnnotation l₁ l₂) :
    processLine l₁ = processLine l₂ := by
  rcases h with rfl | ⟨_, body, t₁, t₂, hbody, rfl, rfl⟩
  · rfl
  · rw [processLine_annotated body t₁ hbody, processLine_annotated body t₂ hbody]

theorem scanLoop_congr (ls₁ ls₂ : List Str)
    (h : List.Forall₂ (fun a b => processLine a = processLine b) ls₁ ls₂) :
    ∀ skipped : SkipMap, scanLoop ls₁ skipped = scanLoop ls₂ skipped := by
  induction h with
  | nil => intro _; rfl
  | cons hab _ ih =>
    intro skipped
    simp only [scanLoop, hab]
    split
    · exact ih _
    · rfl
    · exact ih _

/-- C7: when two lists of lines agree line by line except for the text after
the first `;` of lines that start with `"skip "` or `"duplicate-skip "`,
`ParseSkippedAlbums` has the same outcome on both (same map, same error, same
panic); and the cut at the first `;` comes first: the path handling of
`path ++ ";" ++ t` is that of `path`, whatever `t` holds. -/
theorem annotation_never_affects_result (p : Parser) (logFile : Str)
    (ls₁ ls₂ : List Str) (err : Option IOErr)
    (h : List.Forall₂ sameUpToAnnotation ls₁ ls₂) :
    p.ParseSkippedAlbums (fun _ => .ok ⟨ls₁, err⟩) logFile =
      p.ParseSkippedAlbums (fun _ => .ok ⟨ls₂, err⟩) logFile ∧
    ∀ path t : Str, ';' ∉ path → relativePath (path ++ ';' :: t) = relativePath path := by
  refine ⟨?_, relativePath_annotated⟩
  have h' : List.Forall₂ (fun a b => processLine a = processLine b) ls₁ ls₂ :=
    h.imp processLine_sameUpToAnnotation
  simp only [Parser.ParseSkippedAlbums, scanLoop_congr ls₁ ls₂ h']

set_option maxRecDepth 100000 in
/-- Two logs whose first lines differ after the `;` only. -/
theorem annotation_never_affects_result_witness :
    (New "/x/files/flac".toList).ParseSkippedAlbums
        (fun _ => .ok ⟨["skip /x/files/flac/a; one".toList, "added b".toList], none⟩)
        "beet.log".toList =
      (New "/x/files/flac".toList).ParseSkippedAlbums
        (fun _ => .ok ⟨["skip /x/files/flac/a;/files/flac/ two ; ".toList,
          "added b".toList], none⟩)
        "beet.log".toList ∧
    ∀ path t : Str, ';' ∉ path → relativePath (path ++ ';' :: t) = relativePath path :=
  annotation_never_affects_result (New "/x/files/flac".toList) "beet.log".toList
    ["skip /x/files/flac/a; one".toList, "added b".toList]
    ["skip /x/files/flac/a;/files/flac/ two ; ".toList, "added b".toList] none
    (.cons (Or.inr ⟨by decide, "skip /x/files/flac/a".toList, " one".toList,
        "/files/flac/ two ; ".toList, by decide, by decide, by decide⟩)
      (.cons (Or.inl rfl) .nil))

/-! ## The map and the scanning loop -/

theorem SkipMap.get_set_self (m : SkipMap) (k v : Str) : (m.set k v).get k = some v := by
  simp [SkipMap.get, SkipMap.set]

theorem find?_filter_ne (k k' : Str) (h : k' ≠ k) : ∀ m : SkipMap,
    (m.filter (fun e => e.1 != k)).find? (fun e => e.1 == k') =
      m.find? (fun e => e.1 == k')
  | [] => rfl
  | e :: m => by
    have ih := find?_filter_ne k k' h m
    by_cases he : e.1 = k
    · have h1 : (e.1 != k) = false := by simp [he]
      have h2 : (e.1 == k') = false := by
        simp only [beq_eq_false_iff_ne, he]
        exact fun e' => h e'.symm
      simp only [List.filter_cons, List.find?_cons, h1, h2, Bool.false_eq_true, if_false, ih]
    · have h1 : (e.1 != k) = true := by simpa using he
      by_cases he' : e.1 = k'
      · have h2 : (e.1 == k') = true := by simpa using he'
        simp only [List.filter_cons, List.find?_cons, h1, h2, if_true]
      · have h2 : (e.1 == k') = false := by simpa using he'
        simp only [List.filter_cons, List.find?_cons, h1, h2, if_true, ih]

theorem SkipMap.get_set_ne (m : SkipMap) (k v k' : Str) (h : k' ≠ k) :
    (m.set k v).get k' = m.get k' := by
  have hk : (k == k') = false := by
    simp only [beq_eq_false_iff_ne]
    exact fun e => h e.symm
  simp only [SkipMap.get, SkipMap.set, List.find?_cons, hk]
  rw [find?_filter_ne k k' h]

theorem SkipMap.mem_keys_set (m : SkipMap) (k v k' : Str) :
    k' ∈ (m.set k v).keys ↔ k' = k ∨ k' ∈ m.keys := by
  simp only [SkipMap.keys, SkipMap.set, List.map_cons, List.mem_cons, List.mem_map,
    List.mem_filter]
  constructor
  · rintro (h | ⟨e, ⟨he, _⟩, rfl⟩)
    · exact Or.inl h
    · exact Or.inr ⟨e, he, rfl⟩
  · rintro (h | ⟨e, he, rfl⟩)
    · exact Or.inl h
    · by_cases hk : e.1 = k
      · exact Or.inl hk
      · exact Or.inr ⟨e, ⟨he, by simpa using hk⟩, rfl⟩

theorem SkipMap.nodup_keys_set (m : SkipMap) (k v : Str) (h : m.keys.Nodup) :
    (m.set k v).keys.Nodup := by
  simp only [SkipMap.keys, SkipMap.set, List.map_cons, List.nodup_cons, List.mem_map,
    List.mem_filter]
  constructor
  · rintro ⟨e, ⟨_, he⟩, hk⟩
    simp [hk] at he
  · exact h.sublist ((List.filter_sublist m).map Prod.fst)

theorem noRecord_cons (line : Str) (rest : List Str) (k : Str) :
    noRecord (line :: rest) k ↔ (∀ r, processLine line ≠ .record k r) ∧ noRecord rest k := by
  simp [noRecord]

theorem lastRecord_cons (line : Str) (rest : List Str) (k r : Str) :
    lastRecord (line :: rest) k r ↔
      (processLine line = .record k r ∧ noRecord rest k) ∨ lastRecord rest k r := by
  constructor
  · rintro ⟨pre, l, post, hl, hp, hn⟩
    cases pre with
    | nil =>
      simp only [List.nil_append, List.cons.injEq] at hl
      obtain ⟨rfl, rfl⟩ := hl
      exact Or.inl ⟨hp, hn⟩
    | cons a pre =>
      simp only [List.cons_append, List.cons.injEq] at hl
      obtain ⟨rfl, rfl⟩ := hl
      exact Or.inr ⟨pre, l, post, rfl, hp, hn⟩
  · rintro (⟨hp, hn⟩ | ⟨pre, l, post, rfl, hp, hn⟩)
    · exact ⟨[], line, rest, rfl, hp, hn⟩
    · exact ⟨line :: pre, l, post, rfl, hp, hn⟩

theorem scanLoop_nodup : ∀ (lines : List Str) (m₀ m : SkipMap),
    scanLoop lines m₀ = .ok m → m₀.keys.Nodup → m.keys.Nodup
  | [], m₀, m, h, h₀ => by
    simp only [scanLoop, Except.ok.injEq] at h
    exact h ▸ h₀
  | line :: rest, m₀, m, h, h₀ => by
    simp only [scanLoop] at h
    split at h
    · exact scanLoop_nodup rest m₀ m h h₀
    · cases h
    · exact scanLoop_nodup rest _ m h (SkipMap.nodup_keys_set m₀ _ _ h₀)

theorem scanLoop_keys : ∀ (lines : List Str) (m₀ m : SkipMap),
    scanLoop lines m₀ = .ok m →
    ∀ k, k ∈ m.keys ↔ k ∈ m₀.keys ∨ ∃ l ∈ lines, ∃ r, processLine l = .record k r
  | [], m₀, m, h, k => by
    simp only [scanLoop, Except.ok.injEq] at h
    simp [h]
  | line :: rest, m₀, m, h, k => by
    simp only [scanLoop] at h
    split at h
    · rename_i hp
      rw [scanLoop_keys rest m₀ m h k]
      simp [hp]
    · cases h
    · rename_i k₀ r₀ hp
      rw [scanLoop_keys rest _ m h k, SkipMap.mem_keys_set]
      simp only [List.mem_cons, exists_eq_or_imp, hp, LineResult.record.injEq]
      constructor
      · rintro ((rfl | h1) | h2)
        · exact Or.inr (Or.inl ⟨r₀, rfl, rfl⟩)
        · exact Or.inl h1
        · exact Or.inr (Or.inr h2)
      · rintro (h1 | ⟨r, rfl, _⟩ | h2)
        · exact Or.inl (Or.inr h1)
        · exact Or.inl (Or.inl rfl)
        · exact Or.inr h2

theorem scanLoop_get : ∀ (lines : List Str) (m₀ m : SkipMap),
    scanLoop lines m₀ = .ok m →
    ∀ k r, m.get k = some r ↔
      lastRecord lines k r ∨ (m₀.get k = some r ∧ noRecord lines k)
  | [], m₀, m, h, k, r => by
    simp only [scanLoop, Except.ok.injEq] at h
    subst h
    constructor
    · intro hg
      exact Or.inr ⟨hg, by simp [noRecord]⟩
    · rintro (⟨pre, l, post, hl, _⟩ | ⟨hg, _⟩)
      · simp at hl
      · exact hg
  | line :: rest, m₀, m, h, k, r => by
    simp only [scanLoop] at h
    rw [lastRecord_cons, noRecord_cons]
    split at h
    · rename_i hp
      rw [scanLoop_get rest m₀ m h k r]
      simp [hp]
    · cases h
    · rename_i k₀ r₀ hp
      rw [scanLoop_get rest _ m h k r]
      by_cases hk : k = k₀
      · subst hk
        rw [SkipMap.get_set_self]
        simp only [hp, LineResult.record.injEq, true_and, Option.some.injEq]
        constructor
        · rintro (h1 | ⟨rfl, h2⟩)
          · exact Or.inl (Or.inr h1)
          · exact Or.inl (Or.inl ⟨rfl, h2⟩)
        · rintro ((⟨rfl, h2⟩ | h1) | ⟨_, h3, _⟩)
          · exact Or.inr ⟨rfl, h2⟩
          · exact Or.inl h1
          · exact absurd rfl (h3 r₀)
      · rw [SkipMap.get_set_ne _ _ _ _ hk]
        have hk' : ¬ k₀ = k := fun e => hk e.symm
        simp [hp, hk']

theorem ParseSkippedAlbums_returned_some (p : Parser) (fs : FileSystem) (logFile : Str)
    (file : LogFile) (m : SkipMap) (err : Option Error)
    (hfile : fs logFile = .ok file)
    (hret : p.ParseSkippedAlbums fs logFile = .returned (some m) err) :
    scanLoop file.lines [] = .ok m ∧ file.err = none ∧ err = none := by
  unfold Parser.ParseSkippedAlbums at hret
  rw [hfile] at hret
  simp only at hret
  split at hret
  · cases hret
  · split at hret
    · cases hret
    · rename_i hs _ he
      simp only [Outcome.returned.injEq, Option.some.injEq] at hret
      exact ⟨hret.1 ▸ hs, he, hret.2.symm⟩

/-- C8: when `ParseSkippedAlbums` returns a map for the lines the reader
delivers, the map has one entry for each key extracted from some line and no
other entry, and a key `k` is mapped to the reason `r` exactly when the last
line whose extracted key is `k` carries the reason `r`: a later line for the
same album overwrites an earlier one. -/
theorem last_occurrence_wins (p : Parser) (fs : FileSystem) (logFile : Str)
    (file : LogFile) (m : SkipMap) (err : Option Error)
    (hfile : fs logFile = .ok file)
    (hret : p.ParseSkippedAlbums fs logFile = .returned (some m) err) :
    m.keys.Nodup ∧
    (∀ k, k ∈ m.keys ↔ ∃ l ∈ file.lines, ∃ r, processLine l = .record k r) ∧
    (∀ k r, m.get k = some r ↔ lastRecord file.lines k r) := by
  obtain ⟨hs, _, _⟩ := ParseSkippedAlbums_returned_some p fs logFile file m err hfile hret
  refine ⟨scanLoop_nodup _ _ _ hs (by simp [SkipMap.keys]), ?_, ?_⟩
  · intro k
    rw [scanLoop_keys _ _ _ hs k]
    simp [SkipMap.keys]
  · intro k r
    rw [scanLoop_get _ _ _ hs k r]
    simp [SkipMap.get]

set_option maxRecDepth 100000 in
/-- A `skip` line for the album `a`, a line for `b`, then a `duplicate-skip`
line for `a`: the map holds `a ↦ "duplicate"` and `b ↦ "no strong match"`. -/
theorem last_occurrence_wins_witness :
    (SkipMap.keys [("a".toList, "duplicate".toList),
      ("b".toList, "no strong match".toList)]).Nodup ∧
    (∀ k, k ∈ SkipMap.keys [("a".toList, "duplicate".toList),
        ("b".toList, "no strong match".toList)] ↔
      ∃ l ∈ ["skip /x/files/flac/a; no match".toList, "skip /x/files/flac/b".toList,
        "duplicate-skip /x/files/flac/a".toList], ∃ r, processLine l = .record k r) ∧
    (∀ k r, SkipMap.get [("a".toList, "duplicate".toList),
        ("b".toList, "no strong match".toList)] k = some r ↔
      lastRecord ["skip /x/files/flac/a; no match".toList, "skip /x/files/flac/b".toList,
        "duplicate-skip /x/files/flac/a".toList] k r) :=
  last_occurrence_wins (New "/x/files/flac".toList)
    (fun _ => .ok ⟨["skip /x/files/flac/a; no match".toList, "skip /x/files/flac/b".toList,
      "duplicate-skip /x/files/flac/a".toList], none⟩)
    "beet.log".toList
    ⟨["skip /x/files/flac/a; no match".toList, "skip /x/files/flac/b".toList,
      "duplicate-skip /x/files/flac/a".toList], none⟩
    [("a".toList, "duplicate".toList), ("b".toList, "no strong match".toList)] none
    rfl (by decide)

/-! ## Missing and empty logs -/

/-- C9: when opening the log file fails because the path does not exist,
`ParseSkippedAlbums` returns the nil map and the nil error. -/
theorem missing_log_file_is_no_error (p : Parser) (fs : FileSystem) (logFile : Str)
    (err : IOErr) (hopen : fs logFile = .error err) (hmissing : IsNotExist err = true) :
    p.ParseSkippedAlbums fs logFile = .returned none none := by
  unfold Parser.ParseSkippedAlbums
  rw [hopen]
  simp only [hmissing, if_true]

/-- The path `nonexistent.log` in a file system without any file. -/
theorem missing_log_file_is_no_error_witness :
    (New "/lib/files/flac".toList).ParseSkippedAlbums (fun _ => .error .ErrNotExist)
      "nonexistent.log".toList = .returned none none :=
  missing_log_file_is_no_error (New "/lib/files/flac".toList) (fun _ => .error .ErrNotExist)
    "nonexistent.log".toList .ErrNotExist rfl rfl

theorem scanLoop_unrecognized : ∀ (lines : List Str) (skipped : SkipMap),
    (∀ l ∈ lines, recognized l = false) → scanLoop lines skipped = .ok skipped
  | [], _, _ => rfl
  | line :: rest, skipped, h => by
    simp only [scanLoop, processLine_unrecognized line (h line (by simp))]
    exact scanLoop_unrecognized rest skipped (fun l hl => h l (List.mem_cons_of_mem _ hl))

/-- A log whose reader delivers no line that starts with `"skip "` or
`"duplicate-skip "` and reports no failure gives a map with no entry and the
nil error. -/
theorem scan_of_delivered_unrecognized_lines (p : Parser) (fs : FileSystem)
    (logFile : Str) (file : LogFile)
    (hfile : fs logFile = .ok file) (hread : file.err = none)
    (hnone : ∀ l ∈ file.lines, recognized l = false) :
    p.ParseSkippedAlbums fs logFile = .returned (some []) none := by
  unfold Parser.ParseSkippedAlbums
  rw [hfile]
  simp only [scanLoop_unrecognized file.lines [] hnone, hread]

/-! ## Reasons, errors and the base directory -/

theorem SkipMap.mem_set (m : SkipMap) (k v : Str) (e : Str × Str) (h : e ∈ m.set k v) :
    e = (k, v) ∨ e ∈ m := by
  simp only [SkipMap.set, List.mem_cons, List.mem_filter] at h
  rcases h with h | ⟨h, _⟩
  · exact Or.inl h
  · exact Or.inr h

theorem scanLoop_mem : ∀ (lines : List Str) (m₀ m : SkipMap),
    scanLoop lines m₀ = .ok m → ∀ k r, (k, r) ∈ m →
      (k, r) ∈ m₀ ∨ ∃ l ∈ lines, processLine l = .record k r
  | [], m₀, m, h, k, r, hm => by
    simp only [scanLoop, Except.ok.injEq] at h
    exact Or.inl (h ▸ hm)
  | line :: rest, m₀, m, h, k, r, hm => by
    simp only [scanLoop] at h
    split at h
    · rcases scanLoop_mem rest m₀ m h k r hm with h1 | ⟨l, hl, hp⟩
      · exact Or.inl h1
      · exact Or.inr ⟨l, List.mem_cons_of_mem _ hl, hp⟩
    · cases h
    · rename_i k₀ r₀ hp
      rcases scanLoop_mem rest _ m h k r hm with h1 | ⟨l, hl, hp'⟩
      · rcases SkipMap.mem_set _ _ _ _ h1 with h2 | h2
        · simp only [Prod.mk.injEq] at h2
          obtain ⟨rfl, rfl⟩ := h2
          exact Or.inr ⟨line, List.mem_cons_self _ _, hp⟩
        · exact Or.inl h2
      · exact Or.inr ⟨l, List.mem_cons_of_mem _ hl, hp'⟩

/-- A recorded reason names the prefix of its line. -/
theorem processLine_record_prefix (l k r : Str) (h : processLine l = .record k r) :
    (r = "duplicate".toList ∧ HasPrefix l dupPrefix = true) ∨
    (r = "no strong match".toList ∧ HasPrefix l skipPrefix = true) := by
  unfold processLine at h
  split at h
  · rename_i hd
    split at h
    · simp only [LineResult.record.injEq] at h
      exact Or.inl ⟨h.2.symm, hd⟩
    · cases h
  · split at h
    · rename_i hs
      split at h
      · simp only [LineResult.record.injEq] at h
        exact Or.inr ⟨h.2.symm, hs⟩
      · cases h
    · cases h

/-- C12: every value of a map that `ParseSkippedAlbums` returns is `"duplicate"`
or `"no strong match"`; an entry `k ↦ "duplicate"` comes from a line that
starts with `"duplicate-skip "` and extracts the key `k`, and an entry
`k ↦ "no strong match"` from a line that starts with `"skip "` and extracts
`k`. -/
theorem reasons_are_the_two_strings (p : Parser) (fs : FileSystem) (logFile : Str)
    (file : LogFile) (m : SkipMap) (err : Option Error)
    (hfile : fs logFile = .ok file)
    (hret : p.ParseSkippedAlbums fs logFile = .returned (some m) err) :
    ∀ k r, (k, r) ∈ m →
      (r = "duplicate".toList ∧
        ∃ l ∈ file.lines, HasPrefix l dupPrefix = true ∧ processLine l = .record k r) ∨
      (r = "no strong match".toList ∧
        ∃ l ∈ file.lines, HasPrefix l skipPrefix = true ∧ processLine l = .record k r) := by
  obtain ⟨hs, _, _⟩ := ParseSkippedAlbums_returned_some p fs logFile file m err hfile hret
  intro k r hm
  rcases scanLoop_mem _ _ _ hs k r hm with h0 | ⟨l, hl, hp⟩
  · simp at h0
  · rcases processLine_record_prefix l k r hp with ⟨hr, hpre⟩ | ⟨hr, hpre⟩
    · exact Or.inl ⟨hr, l, hl, hpre, hp⟩
    · exact Or.inr ⟨hr, l, hl, hpre, hp⟩

set_option maxRecDepth 100000 in
/-- A log with one `duplicate-skip` line and one `skip` line, and the entry
`a ↦ "duplicate"` of its map. -/
theorem reasons_are_the_two_strings_witness :
    ("duplicate".toList = "duplicate".toList ∧
      ∃ l ∈ ["duplicate-skip /x/files/flac/a".toList, "skip /x/files/flac/b".toList],
        HasPrefix l dupPrefix = true ∧
        processLine l = .record "a".toList "duplicate".toList) ∨
    ("duplicate".toList = "no strong match".toList ∧
      ∃ l ∈ ["duplicate-skip /x/files/flac/a".toList, "skip /x/files/flac/b".toList],
        HasPrefix l skipPrefix = true ∧
        processLine l = .record "a".toList "duplicate".toList) :=
  reasons_are_the_two_strings (New "/x/files/flac".toList)
    (fun _ => .ok ⟨["duplicate-skip /x/files/flac/a".toList,
      "skip /x/files/flac/b".toList], none⟩)
    "beet.log".toList
    ⟨["duplicate-skip /x/files/flac/a".toList, "skip /x/files/flac/b".toList], none⟩
    [("b".toList, "no strong match".toList), ("a".toList, "duplicate".toList)] none
    rfl (by decide) "a".toList "duplicate".toList (by decide)

/-- C13: when `ParseSkippedAlbums` returns, its error is not nil exactly when
opening the file failed for a cause other than not-found, or the line reader
reported a failure; in both cases the error wraps that cause and the map is
nil, whatever entries the lines read before the failure gave. -/
theorem error_iff_open_or_read_failure (p : Parser) (fs : FileSystem) (logFile : Str)
    (skipped : Option SkipMap) (err : Option Error)
    (hret : p.ParseSkippedAlbums fs logFile = .returned skipped err) :
    (err ≠ none ↔
      (∃ e, fs logFile = .error e ∧ IsNotExist e = false) ∨
      (∃ file e, fs logFile = .ok file ∧ file.err = some e)) ∧
    (∀ e, fs logFile = .error e → IsNotExist e = false →
      skipped = none ∧ err = some ⟨"failed to open log file".toList, e⟩) ∧
    (∀ file e, fs logFile = .ok file → file.err = some e →
      skipped = none ∧ err = some ⟨"error reading log file".toList, e⟩) := by
  unfold Parser.ParseSkippedAlbums at hret
  cases hopen : fs logFile with
  | error e =>
    rw [hopen] at hret
    cases hne : IsNotExist e with
    | true =>
      simp only [hne, if_true, Outcome.returned.injEq] at hret
      obtain ⟨rfl, rfl⟩ := hret
      simp [hne]
    | false =>
      simp only [hne, Bool.false_eq_true, if_false, Outcome.returned.injEq] at hret
      obtain ⟨rfl, rfl⟩ := hret
      simp [hne]
  | ok file =>
    rw [hopen] at hret
    simp only at hret
    split at hret
    · cases hret
    · split at hret
      · rename_i e he
        simp only [Outcome.returned.injEq] at hret
        obtain ⟨rfl, rfl⟩ := hret
        refine ⟨⟨fun _ => Or.inr ⟨file, e, rfl, he⟩, fun _ => by simp⟩, ?_, ?_⟩
        · intro e' h'
          cases h'
        · intro f e' hf he'
          cases hf
          rw [he] at he'
          cases he'
          exact ⟨rfl, rfl⟩
      · rename_i he
        simp only [Outcome.returned.injEq] at hret
        obtain ⟨rfl, rfl⟩ := hret
        refine ⟨⟨fun h => absurd rfl h, ?_⟩, ?_, ?_⟩
        · rintro (⟨e', h', _⟩ | ⟨f, e', hf, he'⟩)
          · cases h'
          · cases hf
            rw [he] at he'
            cases he'
        · intro e' h'
          cases h'
        · intro f e' hf he'
          cases hf
          rw [he] at he'
          cases he'

set_option maxRecDepth 100000 in
/-- A log whose reader delivers one valid line and then reports a failure: the
entry of that line is not returned. -/
theorem error_iff_open_or_read_failure_witness :
    ((some ⟨"error reading log file".toList, .errno 5⟩ : Option Error) ≠ none ↔
      (∃ e, (fun _ => .ok ⟨["skip /x/files/flac/a".toList], some (.errno 5)⟩ : FileSystem)
          "beet.log".toList = .error e ∧ IsNotExist e = false) ∨
      (∃ file e, (fun _ => .ok ⟨["skip /x/files/flac/a".toList], some (.errno 5)⟩ : FileSystem)
          "beet.log".toList = .ok file ∧ file.err = some e)) ∧
    (∀ e, (fun _ => .ok ⟨["skip /x/files/flac/a".toList], some (.errno 5)⟩ : FileSystem)
        "beet.log".toList = .error e → IsNotExist e = false →
      (none : Option SkipMap) = none ∧
        (some ⟨"error reading log file".toList, .errno 5⟩ : Option Error) =
          some ⟨"failed to open log file".toList, e⟩) ∧
    (∀ file e, (fun _ => .ok ⟨["skip /x/files/flac/a".toList], some (.errno 5)⟩ : FileSystem)
        "beet.log".toList = .ok file → file.err = some e →
      (none : Option SkipMap) = none ∧
        (some ⟨"error reading log file".toList, .errno 5⟩ : Option Error) =
          some ⟨"error reading log file".toList, e⟩) :=
  error_iff_open_or_read_failure (New "/x/files/flac".toList)
    (fun _ => .ok ⟨["skip /x/files/flac/a".toList], some (.errno 5)⟩)
    "beet.log".toList none (some ⟨"error reading log file".toList, .errno 5⟩) (by decide)

set_option maxRecDepth 100000 in
/-- C14: parsers built for any two base directories give the same outcome
(map, error or panic) on every log file; and a path that does not lie under
the base directory is accepted: the parser for `/music` records the key `a`
for the line `skip /lib/files/flac/a`. -/
theorem base_directory_has_no_influence :
    (∀ (d₁ d₂ : Str) (fs : FileSystem) (logFile : Str),
      (New d₁).ParseSkippedAlbums fs logFile = (New d₂).ParseSkippedAlbums fs logFile) ∧
    (New "/music".toList).ParseSkippedAlbums
        (fun _ => .ok ⟨["skip /lib/files/flac/a".toList], none⟩) "beet.log".toList =
      .returned (some [("a".toList, "no strong match".toList)]) none := by
  refine ⟨fun _ _ _ _ => rfl, ?_⟩
  decide

/-! ## The scanning loop as a fold -/

theorem scanLoop_append : ∀ (A B : List Str) (m : SkipMap),
    scanLoop (A ++ B) m =
      match scanLoop A m with
      | .ok m' => scanLoop B m'
      | .error v => .error v
  | [], _, _ => rfl
  | line :: rest, B, m => by
    simp only [List.cons_append, scanLoop]
    cases processLine line with
    | ignored => exact scanLoop_append rest B m
    | fatal v => rfl
    | record k r => exact scanLoop_append rest B _

theorem scanLoop_ok_iff_no_fatal : ∀ (lines : List Str) (m₀ : SkipMap),
    (∃ m, scanLoop lines m₀ = .ok m) ↔ ∀ l ∈ lines, ∀ v, processLine l ≠ .fatal v
  | [], m₀ => by simp [scanLoop]
  | line :: rest, m₀ => by
    simp only [scanLoop, List.mem_cons, forall_eq_or_imp]
    cases hp : processLine line with
    | ignored =>
      simp only [ne_eq, reduceCtorEq, not_false_eq_true, implies_true, true_and]
      exact scanLoop_ok_iff_no_fatal rest m₀
    | fatal v => simp
    | record k r =>
      simp only [ne_eq, reduceCtorEq, not_false_eq_true, implies_true, true_and]
      exact scanLoop_ok_iff_no_fatal rest _

theorem scanLoop_error_of_not_ok (lines : List Str) (m₀ : SkipMap)
    (h : ¬ ∃ m, scanLoop lines m₀ = .ok m) : ∃ v, scanLoop lines m₀ = .error v := by
  cases hs : scanLoop lines m₀ with
  | error v => exact ⟨v, rfl⟩
  | ok m => exact absurd ⟨m, hs⟩ h

theorem SkipMap.get_eq_none_iff (m : SkipMap) (k : Str) : m.get k = none ↔ k ∉ m.keys := by
  simp only [SkipMap.get, SkipMap.keys, Option.map_eq_none', List.find?_eq_none, beq_iff_eq,
    List.mem_map, not_exists, not_and]

theorem SkipMap.get_of_mem : ∀ (m : SkipMap) (k r : Str),
    m.keys.Nodup → (k, r) ∈ m → m.get k = some r
  | [], _, _, _, h => by simp at h
  | e :: m, k, r, hn, h => by
    simp only [SkipMap.keys, List.map_cons, List.nodup_cons] at hn
    simp only [List.mem_cons] at h
    rcases h with h | h
    · subst h
      simp [SkipMap.get]
    · have hne : (e.1 == k) = false := by
        simp only [beq_eq_false_iff_ne]
        intro he
        exact hn.1 (he ▸ List.mem_map_of_mem Prod.fst h)
      have ih := SkipMap.get_of_mem m k r hn.2 h
      simp only [SkipMap.get, List.find?_cons, hne] at ih ⊢
      exact ih

theorem SkipMap.mem_of_get : ∀ (m : SkipMap) (k r : Str), m.get k = some r → (k, r) ∈ m
  | [], _, _, h => by simp [SkipMap.get] at h
  | e :: m, k, r, h => by
    cases he : (e.1 == k) with
    | true =>
      simp only [SkipMap.get, List.find?_cons, he, Option.map_some', Option.some.injEq] at h
      have hk : e.1 = k := by simpa using he
      have : e = (k, r) := Prod.ext hk h
      simp [this]
    | false =>
      simp only [SkipMap.get, List.find?_cons, he] at h
      exact List.mem_cons_of_mem _ (SkipMap.mem_of_get m k r h)

theorem SkipMap.perm_of_get_eq (m m' : SkipMap) (hn : m.keys.Nodup) (hn' : m'.keys.Nodup)
    (h : ∀ k, m'.get k = m.get k) : m'.Perm m := by
  rw [List.perm_ext_iff_of_nodup (List.Nodup.of_map _ hn') (List.Nodup.of_map _ hn)]
  rintro ⟨k, r⟩
  constructor
  · intro hm
    exact SkipMap.mem_of_get m k r (h k ▸ SkipMap.get_of_mem m' k r hn' hm)
  · intro hm
    exact SkipMap.mem_of_get m' k r ((h k).symm ▸ SkipMap.get_of_mem m k r hn hm)

theorem entryOf_eq_some (l k r : Str) : entryOf l = some (k, r) ↔ processLine l = .record k r := by
  unfold entryOf
  cases processLine l <;> simp

theorem mem_extractedKeys (lines : List Str) (k : Str) :
    k ∈ extractedKeys lines ↔ ∃ l ∈ lines, ∃ r, processLine l = .record k r := by
  simp only [extractedKeys, List.mem_map, List.mem_filterMap, Prod.exists, exists_and_right,
    exists_eq_right]
  constructor
  · rintro ⟨r, l, hl, he⟩
    exact ⟨l, hl, r, (entryOf_eq_some l k r).mp he⟩
  · rintro ⟨l, hl, r, hp⟩
    exact ⟨r, l, hl, (entryOf_eq_some l k r).mpr hp⟩

/-- With distinct extracted keys, the last record of a key is its only one. -/
theorem lastRecord_iff_of_nodup (lines : List Str) (h : (extractedKeys lines).Nodup)
    (k r : Str) : lastRecord lines k r ↔ ∃ l ∈ lines, processLine l = .record k r := by
  constructor
  · rintro ⟨pre, l, post, rfl, hp, _⟩
    exact ⟨l, by simp, hp⟩
  · rintro ⟨l, hl, hp⟩
    obtain ⟨pre, post, rfl⟩ := List.append_of_mem hl
    refine ⟨pre, l, post, rfl, hp, ?_⟩
    intro l' hl' r' hp'
    have hk : k ∈ extractedKeys post := (mem_extractedKeys post k).mpr ⟨l', hl', r', hp'⟩
    simp only [extractedKeys, List.filterMap_append, List.filterMap_cons,
      (entryOf_eq_some l k r).mpr hp, List.map_append, List.map_cons] at h
    have h2 := (List.nodup_append.mp h).2.1
    simp only [List.nodup_cons] at h2
    exact h2.1 hk

/-! ## Order of the lines, white space, and concatenation -/

theorem ParseSkippedAlbums_of_scanLoop_ok (p : Parser) (logFile : Str) (lines : List Str)
    (m : SkipMap) (h : scanLoop lines [] = .ok m) :
    p.ParseSkippedAlbums (fun _ => .ok ⟨lines, none⟩) logFile = .returned (some m) none := by
  simp only [Parser.ParseSkippedAlbums, h]

theorem ParseSkippedAlbums_of_scanLoop_error (p : Parser) (logFile : Str) (lines : List Str)
    (v : Str) (h : scanLoop lines [] = .error v) :
    p.ParseSkippedAlbums (fun _ => .ok ⟨lines, none⟩) logFile = .panicked v := by
  simp only [Parser.ParseSkippedAlbums, h]

theorem scanLoop_of_panicked (p : Parser) (logFile : Str) (lines : List Str) (v : Str)
    (h : p.ParseSkippedAlbums (fun _ => .ok ⟨lines, none⟩) logFile = .panicked v) :
    scanLoop lines [] = .error v := by
  simp only [Parser.ParseSkippedAlbums] at h
  split at h
  · rename_i hs
    simp only [Outcome.panicked.injEq] at h
    exact h ▸ hs
  · cases h

/-- C15: when `ParseSkippedAlbums` returns a map for a list of lines whose
extracted keys are pairwise distinct, it returns for every permutation of the
lines a map with the same entries: the same key is mapped to the same
reason. -/
theorem insertion_order_is_irrelevant (p : Parser) (logFile : Str)
    (lines lines' : List Str) (m : SkipMap)
    (hret : p.ParseSkippedAlbums (fun _ => .ok ⟨lines, none⟩) logFile =
      .returned (some m) none)
    (hdist : (extractedKeys lines).Nodup)
    (hperm : lines'.Perm lines) :
    ∃ m', p.ParseSkippedAlbums (fun _ => .ok ⟨lines', none⟩) logFile =
        .returned (some m') none ∧
      m'.Perm m ∧ ∀ k, m'.get k = m.get k := by
  obtain ⟨hs, _, _⟩ :=
    ParseSkippedAlbums_returned_some p _ logFile ⟨lines, none⟩ m none rfl hret
  simp only at hs
  have hnf := (scanLoop_ok_iff_no_fatal lines []).mp ⟨m, hs⟩
  obtain ⟨m', hs'⟩ := (scanLoop_ok_iff_no_fatal lines' []).mpr
    (fun l hl => hnf l (hperm.mem_iff.mp hl))
  have hdist' : (extractedKeys lines').Nodup :=
    (((hperm.filterMap entryOf).map Prod.fst).nodup_iff).mpr hdist
  have hget : ∀ k, m'.get k = m.get k := by
    intro k
    apply Option.ext
    intro r
    simp only [Option.mem_def]
    rw [scanLoop_get _ _ _ hs' k r, scanLoop_get _ _ _ hs k r,
      lastRecord_iff_of_nodup lines' hdist', lastRecord_iff_of_nodup lines hdist]
    simp only [SkipMap.get, List.find?_nil, Option.map_none', reduceCtorEq, false_and,
      or_false]
    constructor
    · rintro ⟨l, hl, hp⟩
      exact ⟨l, hperm.mem_iff.mp hl, hp⟩
    · rintro ⟨l, hl, hp⟩
      exact ⟨l, hperm.mem_iff.mpr hl, hp⟩
  refine ⟨m', ParseSkippedAlbums_of_scanLoop_ok p logFile lines' m' hs', ?_, hget⟩
  exact SkipMap.perm_of_get_eq m m'
    (scanLoop_nodup _ _ _ hs (by simp [SkipMap.keys]))
    (scanLoop_nodup _ _ _ hs' (by simp [SkipMap.keys])) hget

set_option maxRecDepth 100000 in
/-- Three lines, two of them with the albums `a` and `b`, and the same lines
in the opposite order. -/
theorem insertion_order_is_irrelevant_witness :
    ∃ m', (New "/x/files/flac".toList).ParseSkippedAlbums
        (fun _ => .ok ⟨["duplicate-skip /x/files/flac/b".toList, "added z".toList,
          "skip /x/files/flac/a".toList], none⟩) "beet.log".toList =
        .returned (some m') none ∧
      m'.Perm [("b".toList, "duplicate".toList), ("a".toList, "no strong match".toList)] ∧
      ∀ k, m'.get k =
        SkipMap.get [("b".toList, "duplicate".toList),
          ("a".toList, "no strong match".toList)] k :=
  insertion_order_is_irrelevant (New "/x/files/flac".toList) "beet.log".toList
    ["skip /x/files/flac/a".toList, "added z".toList, "duplicate-skip /x/files/flac/b".toList]
    ["duplicate-skip /x/files/flac/b".toList, "added z".toList, "skip /x/files/flac/a".toList]
    [("b".toList, "duplicate".toList), ("a".toList, "no strong match".toList)]
    (by decide) (by decide) (by decide)

theorem dropWhile_append_of_all (q : Char → Bool) (s : Str) :
    ∀ ws : Str, (∀ c ∈ ws, q c = true) → (ws ++ s).dropWhile q = s.dropWhile q
  | [], _ => rfl
  | c :: ws, h => by
    have hc : q c = true := h c (by simp)
    simp only [List.cons_append, List.dropWhile_cons, hc, if_true]
    exact dropWhile_append_of_all q s ws (fun d hd => h d (List.mem_cons_of_mem _ hd))

theorem rdropWhile_append_of_all (q : Char → Bool) (s ws : Str)
    (h : ∀ c ∈ ws, q c = true) : (s ++ ws).rdropWhile q = s.rdropWhile q := by
  unfold List.rdropWhile
  rw [List.reverse_append, dropWhile_append_of_all q _ _ (fun c hc => h c (by simpa using hc))]

theorem TrimSpace_append_space (ws : Str) (h : ∀ c ∈ ws, isSpace c = true) :
    ∀ s : Str, TrimSpace (s ++ ws) = TrimSpace s
  | [] => by
    have h1 : ws.dropWhile isSpace = [] := by
      simpa using dropWhile_append_of_all isSpace [] ws h
    simp [TrimSpace, h1]
  | c :: s => by
    cases hc : isSpace c with
    | true =>
      have ih := TrimSpace_append_space ws h s
      simp only [TrimSpace, List.cons_append, List.dropWhile_cons, hc, if_true] at ih ⊢
      exact ih
    | false =>
      simp only [TrimSpace, List.cons_append, List.dropWhile_cons, hc, Bool.false_eq_true,
        if_false]
      exact rdropWhile_append_of_all isSpace (c :: s) ws h

theorem TrimSpace_pad (ws₁ s ws₂ : Str) (h₁ : ∀ c ∈ ws₁, isSpace c = true)
    (h₂ : ∀ c ∈ ws₂, isSpace c = true) : TrimSpace (ws₁ ++ s ++ ws₂) = TrimSpace s := by
  rw [TrimSpace_append_space ws₂ h₂]
  unfold TrimSpace
  rw [dropWhile_append_of_all isSpace s ws₁ h₁]

theorem relativePath_pad (path ws₁ ws₂ : Str) (t : Option Str) (hsemi : ';' ∉ path)
    (h₁ : ∀ c ∈ ws₁, isSpace c = true) (h₂ : ∀ c ∈ ws₂, isSpace c = true) :
    relativePath (ws₁ ++ path ++ ws₂ ++ annotationText t) =
      relativePath (path ++ annotationText t) := by
  have hs : ∀ ws : Str, (∀ c ∈ ws, isSpace c = true) → ';' ∉ ws := by
    intro ws hws hmem
    have := hws ';' hmem
    revert this
    decide
  have hsemi' : ';' ∉ ws₁ ++ path ++ ws₂ := by
    simp only [List.mem_append, not_or]
    exact ⟨⟨hs ws₁ h₁, hsemi⟩, hs ws₂ h₂⟩
  unfold relativePath
  rw [cleanedPath_annotated _ t hsemi', cleanedPath_annotated _ t hsemi,
    TrimSpace_pad ws₁ path ws₂ h₁ h₂]

theorem scanLoop_replace (l l' : Str) (post : List Str) (h : processLine l = processLine l') :
    ∀ (pre : List Str) (m : SkipMap),
      scanLoop (pre ++ l :: post) m = scanLoop (pre ++ l' :: post) m
  | [], m => by simp only [List.nil_append, scanLoop, h]
  | a :: pre, m => by
    simp only [List.cons_append, scanLoop]
    cases processLine a with
    | ignored => exact scanLoop_replace l l' post h pre m
    | fatal v => rfl
    | record k r => exact scanLoop_replace l l' post h pre _

set_option maxRecDepth 100000 in
/-- C16: in a line that starts with `"skip "` or `"duplicate-skip "`, white
space put directly after the prefix and directly before the first `;` (or at
the end of a line without `;`) changes neither what the line does nor the
outcome of `ParseSkippedAlbums` on a log with that line; the line
`skip   /x/files/flac/a  ; note` records the key `a`, as
`skip /x/files/flac/a; note` does. -/
theorem whitespace_around_path_is_trimmed (path ws₁ ws₂ : Str) (t : Option Str)
    (hsemi : ';' ∉ path)
    (h₁ : ∀ c ∈ ws₁, isSpace c = true) (h₂ : ∀ c ∈ ws₂, isSpace c = true) :
    processLine (skipPrefix ++ (ws₁ ++ path ++ ws₂ ++ annotationText t)) =
      processLine (skipPrefix ++ (path ++ annotationText t)) ∧
    processLine (dupPrefix ++ (ws₁ ++ path ++ ws₂ ++ annotationText t)) =
      processLine (dupPrefix ++ (path ++ annotationText t)) ∧
    (∀ (p : Parser) (logFile pre : Str) (before after : List Str) (err : Option IOErr),
      pre = skipPrefix ∨ pre = dupPrefix →
      p.ParseSkippedAlbums (fun _ => .ok
          ⟨before ++ (pre ++ (ws₁ ++ path ++ ws₂ ++ annotationText t)) :: after, err⟩) logFile =
        p.ParseSkippedAlbums (fun _ => .ok
          ⟨before ++ (pre ++ (path ++ annotationText t)) :: after, err⟩) logFile) ∧
    processLine "skip   /x/files/flac/a  ; note".toList =
      .record "a".toList "no strong match".toList ∧
    processLine "skip /x/files/flac/a; note".toList =
      .record "a".toList "no strong match".toList := by
  have hr := relativePath_pad path ws₁ ws₂ t hsemi h₁ h₂
  have e1 : processLine (skipPrefix ++ (ws₁ ++ path ++ ws₂ ++ annotationText t)) =
      processLine (skipPrefix ++ (path ++ annotationText t)) := by
    rw [processLine_skip, processLine_skip, hr]
  have e2 : processLine (dupPrefix ++ (ws₁ ++ path ++ ws₂ ++ annotationText t)) =
      processLine (dupPrefix ++ (path ++ annotationText t)) := by
    rw [processLine_dup, processLine_dup, hr]
  refine ⟨e1, e2, ?_, by decide, by decide⟩
  intro p logFile pre before after err hpre
  have e : processLine (pre ++ (ws₁ ++ path ++ ws₂ ++ annotationText t)) =
      processLine (pre ++ (path ++ annotationText t)) := by
    rcases hpre with rfl | rfl
    · exact e1
    · exact e2
  simp only [Parser.ParseSkippedAlbums, scanLoop_replace _ _ after e before []]

set_option maxRecDepth 100000 in
/-- The path `/x/files/flac/a` with a tab and a space before it and two spaces
after it, followed by the annotation `; note`. -/
theorem whitespace_around_path_is_trimmed_witness :
    processLine (skipPrefix ++ ("\t ".toList ++ "/x/files/flac/a".toList ++ "  ".toList ++
        annotationText (some " note".toList))) =
      processLine (skipPrefix ++ ("/x/files/flac/a".toList ++
        annotationText (some " note".toList))) ∧
    processLine (dupPrefix ++ ("\t ".toList ++ "/x/files/flac/a".toList ++ "  ".toList ++
        annotationText (some " note".toList))) =
      processLine (dupPrefix ++ ("/x/files/flac/a".toList ++
        annotationText (some " note".toList))) ∧
    (∀ (p : Parser) (logFile pre : Str) (before after : List Str) (err : Option IOErr),
      pre = skipPrefix ∨ pre = dupPrefix →
      p.ParseSkippedAlbums (fun _ => .ok
          ⟨before ++ (pre ++ ("\t ".toList ++ "/x/files/flac/a".toList ++ "  ".toList ++
            annotationText (some " note".toList))) :: after, err⟩) logFile =
        p.ParseSkippedAlbums (fun _ => .ok
          ⟨before ++ (pre ++ ("/x/files/flac/a".toList ++
            annotationText (some " note".toList))) :: after, err⟩) logFile) ∧
    processLine "skip   /x/files/flac/a  ; note".toList =
      .record "a".toList "no strong match".toList ∧
    processLine "skip /x/files/flac/a; note".toList =
      .record "a".toList "no strong match".toList :=
  whitespace_around_path_is_trimmed "/x/files/flac/a".toList "\t ".toList "  ".toList
    (some " note".toList) (by decide) (by decide) (by decide)

/-- C19: for two lists of lines `A` and `B` on which `ParseSkippedAlbums`
returns the maps `mA` and `mB`, it returns on `A ++ B` a map that is their
right-biased union: a key of `mB` carries the reason of `mB`, any other key of
`mA` the reason of `mA`, and there is no other key.  When it panics on `A` it
panics on `A ++ B` with the same value, and when it panics on `B` it panics on
`A ++ B`. -/
theorem scan_distributes_over_concatenation (p : Parser) (logFile : Str) (A B : List Str) :
    (∀ mA mB : SkipMap,
      p.ParseSkippedAlbums (fun _ => .ok ⟨A, none⟩) logFile = .returned (some mA) none →
      p.ParseSkippedAlbums (fun _ => .ok ⟨B, none⟩) logFile = .returned (some mB) none →
      ∃ m, p.ParseSkippedAlbums (fun _ => .ok ⟨A ++ B, none⟩) logFile =
          .returned (some m) none ∧
        (∀ k, m.get k = unionGet mA mB k) ∧
        (∀ k, k ∈ m.keys ↔ k ∈ mA.keys ∨ k ∈ mB.keys)) ∧
    (∀ v, p.ParseSkippedAlbums (fun _ => .ok ⟨A, none⟩) logFile = .panicked v →
      p.ParseSkippedAlbums (fun _ => .ok ⟨A ++ B, none⟩) logFile = .panicked v) ∧
    (∀ v, p.ParseSkippedAlbums (fun _ => .ok ⟨B, none⟩) logFile = .panicked v →
      ∃ v', p.ParseSkippedAlbums (fun _ => .ok ⟨A ++ B, none⟩) logFile = .panicked v') := by
  refine ⟨?_, ?_, ?_⟩
  · intro mA mB hA hB
    obtain ⟨hsA, _, _⟩ := ParseSkippedAlbums_returned_some p _ logFile ⟨A, none⟩ mA none rfl hA
    obtain ⟨hsB, _, _⟩ := ParseSkippedAlbums_returned_some p _ logFile ⟨B, none⟩ mB none rfl hB
    simp only at hsA hsB
    obtain ⟨m, hm⟩ := (scanLoop_ok_iff_no_fatal B mA).mpr
      ((scanLoop_ok_iff_no_fatal B []).mp ⟨mB, hsB⟩)
    have hAB : scanLoop (A ++ B) [] = .ok m := by
      rw [scanLoop_append, hsA]
      exact hm
    refine ⟨m, ParseSkippedAlbums_of_scanLoop_ok p logFile _ m hAB, ?_, ?_⟩
    · intro k
      apply Option.ext
      intro r
      simp only [Option.mem_def]
      rw [scanLoop_get _ _ _ hm k r]
      have hB1 := scanLoop_get _ _ _ hsB k
      have hB2 := scanLoop_keys _ _ _ hsB k
      unfold unionGet
      cases hg : mB.get k with
      | some rB =>
        have hl : lastRecord B k rB := by
          have := (hB1 rB).mp hg
          simpa [SkipMap.get] using this
        have hnot : ¬ noRecord B k := by
          obtain ⟨pre, l, post, rfl, hp, _⟩ := hl
          intro hn
          exact hn l (by simp) rB hp
        simp only [hnot, and_false, or_false, Option.some.injEq]
        constructor
        · intro h
          have h1 : mB.get k = some r := (hB1 r).mpr (Or.inl h)
          rw [hg] at h1
          exact Option.some.inj h1
        · rintro rfl
          exact hl
      | none =>
        have hk : k ∉ mB.keys := (SkipMap.get_eq_none_iff mB k).mp hg
        have hn : noRecord B k := by
          intro l hl r' hp
          exact hk ((hB2).mpr (Or.inr ⟨l, hl, r', hp⟩))
        have hnl : ¬ lastRecord B k r := by
          rintro ⟨pre, l, post, rfl, hp, _⟩
          exact hn l (by simp) r hp
        simp only [hnl, false_or, hn, and_true]
    · intro k
      rw [scanLoop_keys _ _ _ hm k, scanLoop_keys _ _ _ hsB k]
      simp [SkipMap.keys]
  · intro v hA
    have hsA := scanLoop_of_panicked p logFile A v hA
    apply ParseSkippedAlbums_of_scanLoop_error
    rw [scanLoop_append, hsA]
  · intro v hB
    have hsB := scanLoop_of_panicked p logFile B v hB
    have hnok : ∀ m₀, ¬ ∃ m, scanLoop B m₀ = .ok m := by
      intro m₀ hok
      obtain ⟨m, hm⟩ := (scanLoop_ok_iff_no_fatal B []).mpr
        ((scanLoop_ok_iff_no_fatal B m₀).mp hok)
      rw [hsB] at hm
      cases hm
    cases hsA : scanLoop A [] with
    | error v' =>
      exact ⟨v', ParseSkippedAlbums_of_scanLoop_error p logFile _ v'
        (by rw [scanLoop_append, hsA])⟩
    | ok mA =>
      obtain ⟨v', hv'⟩ := scanLoop_error_of_not_ok B mA (hnok mA)
      exact ⟨v', ParseSkippedAlbums_of_scanLoop_error p logFile _ v'
        (by rw [scanLoop_append, hsA]; exact hv')⟩

set_option maxRecDepth 100000 in
/-- The lines for the albums `a` and `b`, followed by a `duplicate-skip` line
for `a`: in the union `a` carries the reason of the second list. -/
theorem scan_distributes_over_concatenation_witness :
    ∃ m, (New "/x/files/flac".toList).ParseSkippedAlbums
        (fun _ => .ok ⟨["skip /x/files/flac/a".toList, "skip /x/files/flac/b".toList] ++
          ["duplicate-skip /x/files/flac/a".toList], none⟩) "beet.log".toList =
        .returned (some m) none ∧
      (∀ k, m.get k = unionGet
        [("b".toList, "no strong match".toList), ("a".toList, "no strong match".toList)]
        [("a".toList, "duplicate".toList)] k) ∧
      (∀ k, k ∈ m.keys ↔
        k ∈ SkipMap.keys [("b".toList, "no strong match".toList),
          ("a".toList, "no strong match".toList)] ∨
        k ∈ SkipMap.keys [("a".toList, "duplicate".toList)]) :=
  (scan_distributes_over_concatenation (New "/x/files/flac".toList) "beet.log".toList
    ["skip /x/files/flac/a".toList, "skip /x/files/flac/b".toList]
    ["duplicate-skip /x/files/flac/a".toList]).1
    [("b".toList, "no strong match".toList), ("a".toList, "no strong match".toList)]
    [("a".toList, "duplicate".toList)] (by decide) (by decide)

/-! ## The size of the input -/

theorem byteLen_append : ∀ s t : Str, byteLen (s ++ t) = byteLen s + byteLen t
  | [], t => by simp [byteLen]
  | c :: s, t => by
    have ih := byteLen_append s t
    show c.utf8Size + byteLen (s ++ t) = c.utf8Size + byteLen s + byteLen t
    omega

theorem byteLen_replicate_x : ∀ n : Nat, byteLen (List.replicate n 'x') = n
  | 0 => rfl
  | n + 1 => by
    have h : 'x'.utf8Size = 1 := by decide
    rw [List.replicate_succ, byteLen, byteLen_replicate_x n, h]
    omega

theorem rawLines_of_no_newline : ∀ s : Str, s ≠ [] → '\n' ∉ s → rawLines s = [s]
  | [], h, _ => absurd rfl h
  | c :: cs, _, hn => by
    have hc : c ≠ '\n' := fun e => hn (by simp [e])
    have hcs : '\n' ∉ cs := fun e => hn (List.mem_cons_of_mem _ e)
    cases cs with
    | nil => simp [rawLines, hc]
    | cons d ds =>
      have ih := rawLines_of_no_newline (d :: ds) (by simp) hcs
      simp only [rawLines, hc, if_false] at ih ⊢
      rw [ih]

theorem scanTokens_of_short : ∀ raws : List Str,
    (∀ l ∈ raws, byteLen l < MaxScanTokenSize) → scanTokens raws = ⟨raws.map dropCR, none⟩
  | [], _ => rfl
  | raw :: rest, h => by
    have ih := scanTokens_of_short rest (fun l hl => h l (List.mem_cons_of_mem _ hl))
    simp only [scanTokens, h raw (by simp), if_true, ih, List.map_cons]

theorem ParseSkippedAlbums_of_long_line (p : Parser) (logFile line : Str)
    (hne : line ≠ []) (hnl : '\n' ∉ line) (hlen : MaxScanTokenSize ≤ byteLen line) :
    p.ParseSkippedAlbums (fun _ => .ok (NewScanner line)) logFile =
      .returned none (some ⟨"error reading log file".toList, .ErrTooLong⟩) := by
  have hlt : ¬ byteLen line < MaxScanTokenSize := by omega
  have hscan : NewScanner line = ⟨[], some .ErrTooLong⟩ := by
    unfold NewScanner
    rw [rawLines_of_no_newline _ hne hnl]
    simp only [scanTokens, hlt, if_false]
  unfold Parser.ParseSkippedAlbums
  rw [hscan]
  rfl

/-- C17, the claim as stated fails: a file whose single line is
`skip /x/files/flac/a;` followed by 65536 letters `x` is read without any
failure of the underlying reads, yet the line is not processed and
`ParseSkippedAlbums` returns the error that wraps `bufio.ErrTooLong`. -/
theorem long_line_gives_read_error :
    (New "/x/files/flac".toList).ParseSkippedAlbums
        (fun _ => .ok (NewScanner ("skip /x/files/flac/a;".toList ++ List.replicate 65536 'x')))
        "beet.log".toList =
      .returned none (some ⟨"error reading log file".toList, .ErrTooLong⟩) := by
  apply ParseSkippedAlbums_of_long_line
  · intro h
    exact absurd (List.append_eq_nil.mp h).1 (by decide)
  · rw [List.mem_append, List.mem_replicate]
    rintro (h | ⟨_, h⟩)
    · revert h
      decide
    · revert h
      decide
  · rw [byteLen_append, byteLen_replicate_x]
    have : MaxScanTokenSize = 65536 := rfl
    omega

/-- C17, amended: for a file whose lines, without their newline, are each
shorter than `MaxScanTokenSize` = 65536 bytes, however many lines there are,
and with no failure of the underlying reads, the reader delivers every line
(without its trailing carriage return) and reports no failure, so that
`ParseSkippedAlbums` processes every line and returns no read error: it
returns the map of the scanning loop over all lines and the nil error, or
panics on a malformed line. -/
theorem short_lines_are_all_processed (p : Parser) (logFile content : Str)
    (hshort : ∀ l ∈ rawLines content, byteLen l < MaxScanTokenSize) :
    NewScanner content = ⟨(rawLines content).map dropCR, none⟩ ∧
    p.ParseSkippedAlbums (fun _ => .ok (NewScanner content)) logFile =
      match scanLoop ((rawLines content).map dropCR) [] with
      | .error v => .panicked v
      | .ok skipped => .returned (some skipped) none := by
  have h : NewScanner content = ⟨(rawLines content).map dropCR, none⟩ :=
    scanTokens_of_short _ hshort
  refine ⟨h, ?_⟩
  unfold Parser.ParseSkippedAlbums
  rw [h]

set_option maxRecDepth 100000 in
/-- A file of two lines, the first ended by a carriage return and a newline. -/
theorem short_lines_are_all_processed_witness :
    NewScanner "skip /x/files/flac/a\r\nadded b\n".toList =
      ⟨(rawLines "skip /x/files/flac/a\r\nadded b\n".toList).map dropCR, none⟩ ∧
    (New "/x/files/flac".toList).ParseSkippedAlbums
        (fun _ => .ok (NewScanner "skip /x/files/flac/a\r\nadded b\n".toList))
        "beet.log".toList =
      match scanLoop ((rawLines "skip /x/files/flac/a\r\nadded b\n".toList).map dropCR) [] with
      | .error v => .panicked v
      | .ok skipped => .returned (some skipped) none :=
  short_lines_are_all_processed (New "/x/files/flac".toList) "beet.log".toList
    "skip /x/files/flac/a\r\nadded b\n".toList (by decide)

/-! ## Path elements and `Clean` -/

theorem elements_ne_nil : ∀ s : Str, elements s ≠ []
  | [] => by simp [elements]
  | c :: cs => by
    unfold elements
    split
    · simp
    · split <;> simp

theorem elements_cons_sep (cs : Str) : elements ('/' :: cs) = [] :: elements cs := by
  simp [elements]

theorem elements_cons_of_ne (c : Char) (cs : Str) (hc : c ≠ '/') :
    ∃ e es, elements cs = e :: es ∧ elements (c :: cs) = (c :: e) :: es := by
  cases h : elements cs with
  | nil => exact absurd h (elements_ne_nil cs)
  | cons e es =>
    refine ⟨e, es, rfl, ?_⟩
    simp only [elements, hc, if_false, h]

theorem elements_append_sep (y : Str) :
    ∀ x : Str, elements (x ++ '/' :: y) = elements x ++ elements y
  | [] => by simp [elements]
  | c :: x => by
    have ih := elements_append_sep y x
    by_cases hc : c = '/'
    · subst hc
      rw [List.cons_append, elements_cons_sep, elements_cons_sep, ih, List.cons_append]
    · obtain ⟨e, es, h1, h2⟩ := elements_cons_of_ne c x hc
      obtain ⟨e', es', h1', h2'⟩ := elements_cons_of_ne c (x ++ '/' :: y) hc
      rw [List.cons_append, h2', h2]
      rw [ih, h1, List.cons_append] at h1'
      simp only [List.cons.injEq] at h1'
      obtain ⟨rfl, rfl⟩ := h1'
      rfl

theorem elements_of_no_sep : ∀ s : Str, '/' ∉ s → elements s = [s]
  | [], _ => rfl
  | c :: cs, h => by
    have hc : c ≠ '/' := fun e => h (by simp [e])
    have ih := elements_of_no_sep cs (fun e => h (List.mem_cons_of_mem _ e))
    obtain ⟨e, es, h1, h2⟩ := elements_cons_of_ne c cs hc
    rw [ih] at h1
    simp only [List.cons.injEq] at h1
    obtain ⟨rfl, rfl⟩ := h1
    exact h2

theorem elements_no_sep : ∀ (s : Str), ∀ e ∈ elements s, '/' ∉ e
  | [], e, he => by
    simp only [elements, List.mem_singleton] at he
    simp [he]
  | c :: cs, e, he => by
    have ih := elements_no_sep cs
    by_cases hc : c = '/'
    · subst hc
      rw [elements_cons_sep, List.mem_cons] at he
      rcases he with rfl | he
      · simp
      · exact ih e he
    · obtain ⟨e', es, h1, h2⟩ := elements_cons_of_ne c cs hc
      rw [h2, List.mem_cons] at he
      rw [h1] at ih
      rcases he with rfl | he
      · have := ih e' (by simp)
        simp only [List.mem_cons, not_or]
        exact ⟨fun e => hc e.symm, this⟩
      · exact ih e (List.mem_cons_of_mem _ he)

theorem intercalate_cons_cons (sep a b : Str) (l : List Str) :
    sep.intercalate (a :: b :: l) = a ++ sep ++ sep.intercalate (b :: l) := by
  simp [List.intercalate, List.intersperse]

theorem intercalate_single (sep a : Str) : sep.intercalate [a] = a := by
  simp [List.intercalate, List.intersperse]

theorem intercalate_elements : ∀ s : Str, ['/'].intercalate (elements s) = s
  | [] => by simp [elements, List.intercalate, List.intersperse]
  | c :: cs => by
    have ih := intercalate_elements cs
    by_cases hc : c = '/'
    · subst hc
      rw [elements_cons_sep]
      cases h : elements cs with
      | nil => exact absurd h (elements_ne_nil cs)
      | cons e es =>
        rw [intercalate_cons_cons, ← h, ih]
        rfl
    · obtain ⟨e, es, h1, h2⟩ := elements_cons_of_ne c cs hc
      rw [h2]
      rw [h1] at ih
      cases es with
      | nil =>
        rw [intercalate_single] at ih ⊢
        rw [ih]
      | cons e' es' =>
        rw [intercalate_cons_cons] at ih ⊢
        rw [← ih]
        simp

theorem elements_intercalate : ∀ L : List Str, L ≠ [] → (∀ e ∈ L, '/' ∉ e) →
    elements (['/'].intercalate L) = L
  | [], h, _ => absurd rfl h
  | [a], _, h => by
    rw [intercalate_single]
    exact elements_of_no_sep a (h a (by simp))
  | a :: b :: l, _, h => by
    have ih := elements_intercalate (b :: l) (by simp)
      (fun e he => h e (List.mem_cons_of_mem _ he))
    rw [intercalate_cons_cons, List.append_assoc, List.singleton_append,
      elements_append_sep, ih, elements_of_no_sep a (h a (by simp))]
    rfl

theorem mem_of_mem_intercalate (sep : Str) (c : Char) :
    ∀ L : List Str, c ∈ sep.intercalate L → c ∈ sep ∨ ∃ e ∈ L, c ∈ e
  | [], h => by simp [List.intercalate, List.intersperse] at h
  | [a], h => by
    rw [intercalate_single] at h
    exact Or.inr ⟨a, by simp, h⟩
  | a :: b :: l, h => by
    rw [intercalate_cons_cons, List.mem_append, List.mem_append] at h
    rcases h with (h | h) | h
    · exact Or.inr ⟨a, by simp, h⟩
    · exact Or.inl h
    · rcases mem_of_mem_intercalate sep c (b :: l) h with h' | ⟨e, he, hc⟩
      · exact Or.inl h'
      · exact Or.inr ⟨e, List.mem_cons_of_mem _ he, hc⟩

theorem mem_intercalate_of_mem (sep : Str) (c : Char) :
    ∀ (L : List Str) (e : Str), e ∈ L → c ∈ e → c ∈ sep.intercalate L
  | [], _, h, _ => by simp at h
  | [a], e, h, hc => by
    rw [intercalate_single]
    simp only [List.mem_singleton] at h
    exact h ▸ hc
  | a :: b :: l, e, h, hc => by
    rw [intercalate_cons_cons, List.mem_append, List.mem_append]
    rw [List.mem_cons] at h
    rcases h with rfl | h
    · exact Or.inl (Or.inl hc)
    · exact Or.inr (mem_intercalate_of_mem sep c (b :: l) e h hc)

/-- The elements that the cleaning loop has written are elements of its
input. -/
theorem cleanStep_subset (rooted : Bool) (out : List Str) (e : Str) :
    ∀ a ∈ cleanStep rooted out e, a ∈ out ∨ a = e := by
  intro a ha
  unfold cleanStep at ha
  split at ha
  · exact Or.inl ha
  · split at ha
    · exact Or.inl ha
    · split at ha
      · split at ha
        · split at ha
          · simp at ha
          · simp only [List.mem_singleton] at ha
            exact Or.inr ha
        · split at ha
          · rw [List.mem_cons] at ha
            rcases ha with h | h
            · exact Or.inr h
            · exact Or.inl h
          · exact Or.inl (List.mem_cons_of_mem _ ha)
      · rw [List.mem_cons] at ha
        rcases ha with h | h
        · exact Or.inr h
        · exact Or.inl h

theorem foldl_cleanStep_subset (rooted : Bool) :
    ∀ (L out : List Str), ∀ a ∈ L.foldl (cleanStep rooted) out, a ∈ out ∨ a ∈ L
  | [], out, a, ha => Or.inl ha
  | e :: L, out, a, ha => by
    rw [List.foldl_cons] at ha
    rcases foldl_cleanStep_subset rooted L _ a ha with h | h
    · rcases cleanStep_subset rooted out e a h with h' | h'
      · exact Or.inl h'
      · exact Or.inr (by simp [h'])
    · exact Or.inr (List.mem_cons_of_mem _ h)

/-- Cleaning a path adds no character other than `/` and `.`. -/
theorem mem_of_mem_Clean (path : Str) (c : Char) (h : c ∈ Clean path) :
    c ∈ path ∨ c = '/' ∨ c = '.' := by
  cases path with
  | nil =>
    simp only [Clean, List.mem_singleton] at h
    exact Or.inr (Or.inr h)
  | cons d ds =>
    have key : c ∈ ['/'].intercalate
        (((elements (d :: ds)).foldl (cleanStep (d == '/')) []).reverse) →
        c ∈ d :: ds ∨ c = '/' ∨ c = '.' := by
      intro hc
      rcases mem_of_mem_intercalate _ c _ hc with h1 | ⟨e, he, hce⟩
      · simp only [List.mem_singleton] at h1
        exact Or.inr (Or.inl h1)
      · rw [List.mem_reverse] at he
        rcases foldl_cleanStep_subset _ _ _ e he with h2 | h2
        · simp at h2
        · left
          rw [← intercalate_elements (d :: ds)]
          exact mem_intercalate_of_mem _ c _ e h2 hce
    simp only [Clean] at h
    split at h
    · rw [List.mem_cons] at h
      rcases h with h | h
      · exact Or.inr (Or.inl h)
      · exact key h
    · split at h
      · simp only [List.mem_singleton] at h
        exact Or.inr (Or.inr h)
      · exact key h

theorem cleanStep_real (rooted : Bool) (out : List Str) (e : Str) (h : realElement e) :
    cleanStep rooted out e = e :: out := by
  obtain ⟨h1, h2, h3, _⟩ := h
  simp [cleanStep, h1, h2, h3]

theorem foldl_cleanStep_real (rooted : Bool) : ∀ (L out : List Str),
    (∀ e ∈ L, realElement e) → L.foldl (cleanStep rooted) out = L.reverse ++ out
  | [], _, _ => rfl
  | e :: L, out, h => by
    rw [List.foldl_cons, cleanStep_real rooted out e (h e (by simp)),
      foldl_cleanStep_real rooted L _ (fun a ha => h a (List.mem_cons_of_mem _ ha))]
    simp

/-- The cleaning loop keeps its output in this form: real elements, written
after a run of `..` elements that is empty for a rooted path. -/
theorem cleanStep_form (rooted : Bool) (out : List Str) (e : Str) (he : '/' ∉ e)
    (h : ∃ (n : Nat) (R : List Str), out = R ++ List.replicate n ['.', '.'] ∧
      (rooted = true → n = 0) ∧ ∀ a ∈ R, realElement a) :
    ∃ (n : Nat) (R : List Str), cleanStep rooted out e = R ++ List.replicate n ['.', '.'] ∧
      (rooted = true → n = 0) ∧ ∀ a ∈ R, realElement a := by
  obtain ⟨n, R, rfl, hn, hR⟩ := h
  by_cases h1 : e = []
  · exact ⟨n, R, by simp [cleanStep, h1], hn, hR⟩
  by_cases h2 : e = ['.']
  · exact ⟨n, R, by simp [cleanStep, h2], hn, hR⟩
  by_cases h3 : e = ['.', '.']
  · subst h3
    cases R with
    | nil =>
      cases n with
      | zero =>
        cases rooted with
        | true => exact ⟨0, [], by simp [cleanStep], fun _ => rfl, by simp⟩
        | false => exact ⟨1, [], by simp [cleanStep], by simp, by simp⟩
      | succ n =>
        cases rooted with
        | true => exact absurd (hn rfl) (by simp)
        | false =>
          refine ⟨n + 2, [], ?_, by simp, by simp⟩
          simp [cleanStep, List.replicate_succ]
    | cons r R' =>
      have hr := hR r (by simp)
      have hr3 : r ≠ ['.', '.'] := hr.2.2.1
      refine ⟨n, R', ?_, hn, fun a ha => hR a (List.mem_cons_of_mem _ ha)⟩
      simp [cleanStep, hr3]
  · refine ⟨n, e :: R, ?_, hn, ?_⟩
    · rw [cleanStep_real rooted _ e ⟨h1, h2, h3, he⟩]
      rfl
    · intro a ha
      rw [List.mem_cons] at ha
      rcases ha with rfl | ha
      · exact ⟨h1, h2, h3, he⟩
      · exact hR a ha

theorem foldl_cleanStep_form (rooted : Bool) : ∀ (L out : List Str),
    (∀ e ∈ L, '/' ∉ e) →
    (∃ (n : Nat) (R : List Str), out = R ++ List.replicate n ['.', '.'] ∧
      (rooted = true → n = 0) ∧ ∀ a ∈ R, realElement a) →
    ∃ (n : Nat) (R : List Str),
      L.foldl (cleanStep rooted) out = R ++ List.replicate n ['.', '.'] ∧
      (rooted = true → n = 0) ∧ ∀ a ∈ R, realElement a
  | [], _, _, h => h
  | e :: L, out, hL, h => by
    rw [List.foldl_cons]
    exact foldl_cleanStep_form rooted L _ (fun a ha => hL a (List.mem_cons_of_mem _ ha))
      (cleanStep_form rooted out e (hL e (by simp)) h)

/-- The elements of a cleaned path: some elements that are not real (an empty
one before the root `/`, leading `..`, or a lone `.`), then real elements
only. -/
theorem elements_Clean (path : Str) :
    ∃ P R : List Str, elements (Clean path) = P ++ R ∧
      (∀ e ∈ P, ¬ realElement e) ∧ ∀ e ∈ R, realElement e := by
  have hdot : ¬ realElement ['.'] := fun h => h.2.1 rfl
  have hdd : ¬ realElement ['.', '.'] := fun h => h.2.2.1 rfl
  have hnil : ¬ realElement [] := fun h => h.1 rfl
  cases path with
  | nil => exact ⟨[['.']], [], by simp [Clean, elements], by simpa using hdot, by simp⟩
  | cons d ds =>
    obtain ⟨n, R, hout, hn, hR⟩ := foldl_cleanStep_form (d == '/') (elements (d :: ds)) []
      (elements_no_sep (d :: ds)) ⟨0, [], rfl, fun _ => rfl, by simp⟩
    have hrev : ((elements (d :: ds)).foldl (cleanStep (d == '/')) []).reverse =
        List.replicate n ['.', '.'] ++ R.reverse := by
      rw [hout, List.reverse_append, List.reverse_replicate]
    have hRr : ∀ e ∈ R.reverse, realElement e := fun e he => hR e (List.mem_reverse.mp he)
    have hsep : ∀ e ∈ List.replicate n ['.', '.'] ++ R.reverse, '/' ∉ e := by
      intro e he
      rw [List.mem_append] at he
      rcases he with he | he
      · rw [List.eq_of_mem_replicate he]
        decide
      · exact (hRr e he).2.2.2
    simp only [Clean, hrev]
    cases hroot : (d == '/') with
    | true =>
      have hn0 : n = 0 := hn hroot
      subst hn0
      simp only [List.replicate_zero, List.nil_append, if_true] at hsep ⊢
      rw [elements_cons_sep]
      by_cases hempty : R.reverse = []
      · refine ⟨[[], []], [], ?_, ?_, by simp⟩
        · simp [hempty, List.intercalate, List.intersperse, elements]
        · intro e he
          simp only [List.mem_cons, List.mem_singleton, List.not_mem_nil, or_false,
            or_self] at he
          exact he ▸ hnil
      · refine ⟨[[]], R.reverse, ?_, ?_, hRr⟩
        · rw [elements_intercalate _ hempty hsep]
          rfl
        · intro e he
          simp only [List.mem_singleton] at he
          exact he ▸ hnil
    | false =>
      simp only [Bool.false_eq_true, if_false]
      split
      · exact ⟨[['.']], [], by simp [elements], by simpa using hdot, by simp⟩
      · rename_i hbody
        have hne : List.replicate n ['.', '.'] ++ R.reverse ≠ [] := by
          intro h0
          apply hbody
          rw [h0]
          rfl
        refine ⟨List.replicate n ['.', '.'], R.reverse, elements_intercalate _ hne hsep, ?_, hRr⟩
        intro e he
        rw [List.eq_of_mem_replicate he]
        exact hdd

/-- A relative path made of real elements is in clean form. -/
theorem Clean_eq_self_of_real (s : Str) (h : ∀ e ∈ elements s, realElement e) :
    Clean s = s := by
  cases s with
  | nil =>
    have := h [] (by simp [elements])
    exact absurd rfl this.1
  | cons c cs =>
    have hc : (c == '/') = false := by
      simp only [beq_eq_false_iff_ne]
      rintro rfl
      have := h [] (by simp [elements_cons_sep])
      exact this.1 rfl
    simp only [Clean, hc, Bool.false_eq_true, if_false,
      foldl_cleanStep_real false _ [] h, List.append_nil, List.reverse_reverse,
      intercalate_elements]
    simp

/-- A rooted path made of real elements is in clean form. -/
theorem Clean_eq_self_of_rooted (L : List Str) (hne : L ≠ [])
    (h : ∀ e ∈ L, realElement e) :
    Clean ('/' :: ['/'].intercalate L) = '/' :: ['/'].intercalate L := by
  have hel : elements ('/' :: ['/'].intercalate L) = [] :: L := by
    rw [elements_cons_sep, elements_intercalate L hne (fun e he => (h e he).2.2.2)]
  have hstep : cleanStep true [] [] = [] := by simp [cleanStep]
  simp only [Clean, hel, List.foldl_cons, beq_self_eq_true, hstep, if_true,
    foldl_cleanStep_real true L [] h, List.append_nil, List.reverse_reverse]

/-! ## The form of the keys -/

theorem occurrences_of_head_not_mem (d : Char) (sub : Str) :
    ∀ s : Str, d ∉ s → occurrences (d :: sub) s = 0
  | [], _ => by simp [occurrences]
  | c :: cs, h => by
    have hc : d ≠ c := fun e => h (by simp [e])
    have ih := occurrences_of_head_not_mem d sub cs (fun e => h (List.mem_cons_of_mem _ e))
    simp [occurrences, List.isPrefixOf, hc, ih]

theorem Split_of_Index (sep x a : Str) (hsep : sep ≠ [])
    (hi : Index (x ++ sep ++ a) sep = x.length) (ha : Index a sep < 0) :
    Split (x ++ sep ++ a) sep = [x, a] := by
  have hlen : (x ++ sep ++ a).length = (x.length + sep.length + a.length - 1) + 1 := by
    have := List.length_pos.mpr hsep
    simp only [List.length_append]
    omega
  have hm : ¬ Index (x ++ sep ++ a) sep < 0 := by omega
  have hnat : (Index (x ++ sep ++ a) sep).toNat = x.length := by omega
  simp only [Split, hsep, if_false, hlen, splitLoop, hm, hnat]
  rw [List.append_assoc, List.take_left, ← List.drop_drop, List.drop_left, List.drop_left,
    splitLoop_of_Index_neg _ _ _ ha]

theorem Split_eq_pair (sep s x a : Str) (hsep : sep ≠ []) (h : Split s sep = [x, a]) :
    s = x ++ sep ++ a ∧ occurrences sep a = 0 := by
  simp only [Split, hsep, if_false] at h
  cases hn : s.length with
  | zero =>
    rw [hn] at h
    simp [splitLoop] at h
  | succ n =>
    rw [hn] at h
    simp only [splitLoop] at h
    split at h
    · simp at h
    · rename_i hm
      have h0 : 0 ≤ Index s sep := by omega
      simp only [List.cons.injEq] at h
      obtain ⟨hx, hrest⟩ := h
      have hpre := Index_nonneg_isPrefix sep s h0
      have hdrop : s.drop (Index s sep).toNat =
          sep ++ s.drop ((Index s sep).toNat + sep.length) := by
        have := List.prefix_iff_eq_append.mp hpre
        rw [List.drop_drop] at this
        exact this.symm
      have hs : s = x ++ sep ++ s.drop ((Index s sep).toNat + sep.length) := by
        rw [← hx, List.append_assoc, ← hdrop, List.take_append_drop]
      have hlen : (s.drop ((Index s sep).toNat + sep.length)).length ≤ n := by
        have := List.length_pos.mpr hsep
        rw [List.length_drop]
        omega
      generalize s.drop ((Index s sep).toNat + sep.length) = rest at hrest hs hlen
      cases n with
      | zero =>
        have hnil : rest = [] := List.length_eq_zero.mp (by omega)
        subst hnil
        simp only [splitLoop, List.cons.injEq, and_true] at hrest
        subst hrest
        refine ⟨hs, ?_⟩
        obtain ⟨d, sep', rfl⟩ := List.exists_cons_of_ne_nil hsep
        simp [occurrences]
      | succ n =>
        simp only [splitLoop] at hrest
        split at hrest
        · rename_i hneg
          simp only [List.cons.injEq, and_true] at hrest
          subst hrest
          exact ⟨hs, (Index_neg_iff_occurrences sep rest).mp hneg⟩
        · simp only [List.cons.injEq] at hrest
          have := splitLoop_length_pos sep n
            (rest.drop ((Index rest sep).toNat + sep.length))
          rw [hrest.2] at this
          simp at this

theorem Index_x_marker (a : Str) :
    Index ("/x".toList ++ marker ++ a) marker = ("/x".toList).length := by
  have e : "/x".toList ++ marker ++ a = '/' :: 'x' :: (marker ++ a) := rfl
  have em : marker = '/' :: 'f' :: "iles/flac/".toList := rfl
  have h0 : marker.isPrefixOf ('/' :: 'x' :: (marker ++ a)) = false := by
    rw [em]
    simp [List.isPrefixOf]
  have h1 : marker.isPrefixOf ('x' :: (marker ++ a)) = false := by
    rw [em]
    simp [List.isPrefixOf]
  have h2 : Index (marker ++ a) marker = 0 := by
    have := Index_le_of_append marker a []
    simp only [List.nil_append, List.length_nil, Nat.cast_zero] at this
    omega
  rw [e]
  unfold Index
  simp only [h0, Bool.false_eq_true, if_false]
  unfold Index
  simp only [h1, Bool.false_eq_true, if_false, h2]
  rfl

set_option maxRecDepth 100000 in
/-- C11: for an album name `a` that holds space characters inside, has no
white space at either end, no `;` and no `/` (such a name is neither `.` nor
`..`), the line `skip /x/files/flac/` followed by `a` and `; note` records the
key `a` itself, and a log with that single line gives the one-entry map
`a ↦ "no strong match"`. -/
theorem embedded_spaces_are_preserved (a : Str)
    (hinner : ' ' ∈ a) (houter : noOuterSpace a) (hsemi : ';' ∉ a) (hsep : '/' ∉ a) :
    processLine ("skip /x/files/flac/".toList ++ a ++ "; note".toList) =
      .record a "no strong match".toList ∧
    ∀ (p : Parser) (logFile : Str),
      p.ParseSkippedAlbums
          (fun _ => .ok ⟨["skip /x/files/flac/".toList ++ a ++ "; note".toList], none⟩)
          logFile =
        .returned (some [(a, "no strong match".toList)]) none := by
  have hne : a ≠ [] := List.ne_nil_of_mem hinner
  have hreal : realElement a := by
    refine ⟨hne, ?_, ?_, hsep⟩
    · rintro rfl
      revert hinner
      decide
    · rintro rfl
      revert hinner
      decide
  have hform : "/x".toList ++ marker ++ a =
      '/' :: ['/'].intercalate ["x".toList, "files".toList, "flac".toList, a] := by
    rw [intercalate_cons_cons, intercalate_cons_cons, intercalate_cons_cons,
      intercalate_single]
    rfl
  have hclean : Clean ("/x".toList ++ marker ++ a) = "/x".toList ++ marker ++ a := by
    rw [hform]
    apply Clean_eq_self_of_rooted _ (by simp)
    intro e he
    simp only [List.mem_cons, List.mem_singleton, List.not_mem_nil, or_false] at he
    rcases he with rfl | rfl | rfl | rfl
    · decide
    · decide
    · decide
    · exact hreal
  have hsemi' : ';' ∉ "/x".toList ++ marker ++ a := by
    simp only [List.mem_append, not_or]
    exact ⟨⟨by decide, by decide⟩, hsemi⟩
  have hspace : noOuterSpace ("/x".toList ++ marker ++ a) := by
    obtain ⟨_, hlast⟩ := houter
    constructor
    · intro c hc
      have : c = '/' := by
        have e : ("/x".toList ++ marker ++ a).head? = some '/' := rfl
        rw [e] at hc
        exact (Option.some.inj hc).symm
      rw [this]
      decide
    · intro c hc
      rw [List.getLast?_append_of_ne_nil _ hne] at hc
      exact hlast c hc
  have hsplit : Split ("/x".toList ++ marker ++ a) marker = ["/x".toList, a] :=
    Split_of_Index marker _ a marker_ne_nil (Index_x_marker a)
      ((Index_neg_iff_occurrences marker a).mpr
        (occurrences_of_head_not_mem '/' "files/flac/".toList a hsep))
  have hrel := relativePath_of_split "/x".toList a (some " note".toList)
    hclean hsemi' hspace hsplit
  have hline : "skip /x/files/flac/".toList ++ a ++ "; note".toList =
      skipPrefix ++ ("/x".toList ++ marker ++ a ++ annotationText (some " note".toList)) :=
    rfl
  have hproc : processLine ("skip /x/files/flac/".toList ++ a ++ "; note".toList) =
      .record a "no strong match".toList := by
    rw [hline, processLine_skip, hrel]
  refine ⟨hproc, ?_⟩
  intro p logFile
  simp only [Parser.ParseSkippedAlbums, scanLoop, hproc]
  rfl

set_option maxRecDepth 100000 in
/-- The album name `album  with spaces`, with a run of two spaces. -/
theorem embedded_spaces_are_preserved_witness :
    processLine ("skip /x/files/flac/".toList ++ "album  with spaces".toList ++
        "; note".toList) =
      .record "album  with spaces".toList "no strong match".toList ∧
    ∀ (p : Parser) (logFile : Str),
      p.ParseSkippedAlbums
          (fun _ => .ok ⟨["skip /x/files/flac/".toList ++ "album  with spaces".toList ++
            "; note".toList], none⟩) logFile =
        .returned (some [("album  with spaces".toList, "no strong match".toList)]) none :=
  embedded_spaces_are_preserved "album  with spaces".toList
    (by decide) (by decide) (by decide) (by decide)

theorem Index_char_take (c : Char) : ∀ s : Str, 0 ≤ Index s [c] →
    c ∉ s.take (Index s [c]).toNat
  | [], _ => by simp
  | d :: ds, h => by
    have ih := Index_char_take c ds
    unfold Index at h ⊢
    split at h
    · rename_i hp
      simp [hp]
    · rename_i hp
      have hcd : c ≠ d := by
        intro e
        apply hp
        simp [List.isPrefixOf, e]
      simp only [hp] at h ⊢
      simp only [Bool.false_eq_true, if_false] at h ⊢
      split at h
      · omega
      · rename_i hr
        have hr0 : 0 ≤ Index ds [c] := by omega
        simp only [hr, if_false]
        have e : (Index ds [c] + 1).toNat = (Index ds [c]).toNat + 1 := by omega
        rw [e, List.take_succ_cons, List.mem_cons, not_or]
        exact ⟨hcd, ih hr0⟩

theorem not_mem_of_Index_neg (c : Char) (s : Str) (h : Index s [c] < 0) : c ∉ s := by
  intro hc
  obtain ⟨u, v, rfl⟩ := List.append_of_mem hc
  have := occurrences_pos_of_isInfix [c] (u ++ c :: v) ⟨u, v, by simp⟩
  have h0 := (Index_neg_iff_occurrences [c] (u ++ c :: v)).mp h
  omega

theorem mem_of_mem_TrimSpace (s : Str) (c : Char) (h : c ∈ TrimSpace s) : c ∈ s := by
  unfold TrimSpace at h
  exact (List.dropWhile_suffix isSpace).subset
    ((List.rdropWhile_prefix isSpace _).subset h)

/-- The processed path holds no `;`. -/
theorem semicolon_not_mem_cleanedPath (path : Str) : ';' ∉ cleanedPath path := by
  intro h
  unfold cleanedPath at h
  rcases mem_of_mem_Clean _ _ h with h1 | h1 | h1
  · have h2 := mem_of_mem_TrimSpace _ _ h1
    simp only at h2
    split at h2
    · rename_i hi
      exact Index_char_take ';' path hi h2
    · rename_i hi
      exact not_mem_of_Index_neg ';' path (by omega) h2
  · revert h1
    decide
  · revert h1
    decide

theorem elements_marker_append (x k : Str) :
    elements (x ++ marker ++ k) =
      elements x ++ "files".toList :: "flac".toList :: elements k := by
  have e : x ++ marker ++ k =
      x ++ '/' :: ("files".toList ++ '/' :: ("flac".toList ++ '/' :: k)) := by
    rw [List.append_assoc]
    rfl
  rw [e, elements_append_sep, elements_append_sep, elements_append_sep,
    elements_of_no_sep "files".toList (by decide),
    elements_of_no_sep "flac".toList (by decide)]
  rfl

theorem suffix_after_real (P R A K : List Str) (f : Str) (h : P ++ R = A ++ f :: K)
    (hP : ∀ e ∈ P, ¬ realElement e) (hf : realElement f) : ∀ e ∈ K, e ∈ R := by
  have h' : P ++ R = (A ++ [f]) ++ K := by simp [h]
  rcases List.append_eq_append_iff.mp h' with ⟨a', _, hR⟩ | ⟨c', hPc, _⟩
  · intro e he
    rw [hR]
    exact List.mem_append_right _ he
  · exact absurd hf (hP f (by rw [hPc]; simp))

/-- The part of a cleaned path after the marker is made of real elements. -/
theorem elements_key_real (path x k : Str) (h : Clean path = x ++ marker ++ k) :
    ∀ e ∈ elements k, realElement e := by
  obtain ⟨P, R, hPR, hP, hR⟩ := elements_Clean path
  rw [h, elements_marker_append] at hPR
  have hPR' : P ++ R = (elements x ++ ["files".toList]) ++ "flac".toList :: elements k := by
    rw [← hPR]
    simp
  intro e he
  exact hR e (suffix_after_real P R _ _ _ hPR' hP (by decide) e he)

theorem processLine_record_relativePath (l k r : Str) (h : processLine l = .record k r) :
    ∃ rest, relativePath rest = .ok k := by
  unfold processLine at h
  split at h
  · split at h
    · rename_i rel heq
      simp only [LineResult.record.injEq] at h
      exact ⟨_, h.1 ▸ heq⟩
    · cases h
  · split at h
    · split at h
      · rename_i rel heq
        simp only [LineResult.record.injEq] at h
        exact ⟨_, h.1 ▸ heq⟩
      · cases h
    · cases h

theorem relativePath_ok (rest k : Str) (h : relativePath rest = .ok k) :
    ∃ x, Split (cleanedPath rest) marker = [x, k] := by
  unfold relativePath at h
  simp only at h
  split at h
  · rename_i x rel heq
    simp only [Except.ok.injEq] at h
    exact ⟨x, h ▸ heq⟩
  · cases h

/-- What holds of every key that a line records. -/
theorem recorded_key_form (l k r : Str) (h : processLine l = .record k r) :
    k ≠ [] ∧ k.head? ≠ some '/' ∧ k.getLast? ≠ some '/' ∧ ¬ ['/', '/'] <:+: k ∧
    (∀ e ∈ elements k, realElement e) ∧ ';' ∉ k ∧ ¬ marker <:+: k ∧ Clean k = k := by
  obtain ⟨rest, hrel⟩ := processLine_record_relativePath l k r h
  obtain ⟨x, hsplit⟩ := relativePath_ok rest k hrel
  obtain ⟨hq, hocc⟩ := Split_eq_pair marker _ x k marker_ne_nil hsplit
  have hreal : ∀ e ∈ elements k, realElement e :=
    elements_key_real (TrimSpace (if Index rest [';'] ≥ 0
      then rest.take (Index rest [';']).toNat else rest)) x k hq
  have hnil : ¬ realElement [] := fun h => h.1 rfl
  refine ⟨?_, ?_, ?_, ?_, hreal, ?_, ?_, Clean_eq_self_of_real k hreal⟩
  · rintro rfl
    exact hnil (hreal [] (by simp [elements]))
  · intro hh
    cases k with
    | nil => simp at hh
    | cons c cs =>
      simp only [List.head?_cons, Option.some.injEq] at hh
      subst hh
      exact hnil (hreal [] (by simp [elements_cons_sep]))
  · intro hl
    obtain ⟨ys, rfl⟩ := List.getLast?_eq_some_iff.mp hl
    apply hnil
    apply hreal
    rw [elements_append_sep]
    simp [elements]
  · rintro ⟨u, v, rfl⟩
    apply hnil
    apply hreal
    have e : u ++ ['/', '/'] ++ v = u ++ '/' :: ('/' :: v) := by simp
    rw [e, elements_append_sep, elements_cons_sep]
    simp
  · intro hs
    apply semicolon_not_mem_cleanedPath rest
    rw [hq]
    exact List.mem_append_right _ hs
  · intro hinf
    have := occurrences_pos_of_isInfix marker k hinf
    omega

/-- C18: every key of a map that `ParseSkippedAlbums` returns is a non-empty
relative path in clean form: it is not empty, neither starts nor ends with
`/`, does not contain `//`, each of its elements is a real one (not empty, not
`.`, not `..`), it holds no `;` and no `/files/flac/`, and `Clean` returns it
unchanged. -/
theorem keys_are_clean_relative_paths (p : Parser) (fs : FileSystem) (logFile : Str)
    (file : LogFile) (m : SkipMap) (err : Option Error)
    (hfile : fs logFile = .ok file)
    (hret : p.ParseSkippedAlbums fs logFile = .returned (some m) err) :
    ∀ k ∈ m.keys,
      k ≠ [] ∧ k.head? ≠ some '/' ∧ k.getLast? ≠ some '/' ∧ ¬ ['/', '/'] <:+: k ∧
      (∀ e ∈ elements k, realElement e) ∧ ';' ∉ k ∧ ¬ marker <:+: k ∧ Clean k = k := by
  obtain ⟨hs, _, _⟩ := ParseSkippedAlbums_returned_some p fs logFile file m err hfile hret
  intro k hk
  rcases (scanLoop_keys _ _ _ hs k).mp hk with h0 | ⟨l, _, r, hp⟩
  · simp [SkipMap.keys] at h0
  · exact recorded_key_form l k r hp

set_option maxRecDepth 100000 in
/-- A log whose lines need trimming and cleaning: the keys are `b/c` and
`d e`; here the key `b/c`. -/
theorem keys_are_clean_relative_paths_witness :
    "b/c".toList ≠ [] ∧ ("b/c".toList).head? ≠ some '/' ∧
      ("b/c".toList).getLast? ≠ some '/' ∧ ¬ ['/', '/'] <:+: "b/c".toList ∧
      (∀ e ∈ elements "b/c".toList, realElement e) ∧ ';' ∉ "b/c".toList ∧
      ¬ marker <:+: "b/c".toList ∧ Clean "b/c".toList = "b/c".toList :=
  keys_are_clean_relative_paths (New "/x/files/flac".toList)
    (fun _ => .ok ⟨["skip  /x//files/flac/a/../b/./c/ ; note".toList,
      "duplicate-skip ../files/flac/d e".toList], none⟩)
    "beet.log".toList
    ⟨["skip  /x//files/flac/a/../b/./c/ ; note".toList,
      "duplicate-skip ../files/flac/d e".toList], none⟩
    [("d e".toList, "duplicate".toList), ("b/c".toList, "no strong match".toList)] none
    rfl (by decide) "b/c".toList (by decide)

/-! ## Single-line and unrecognized logs as file contents -/

theorem dropCR_append_semicolon (A t : Str) :
    dropCR (A ++ ';' :: t) = A ++ ';' :: dropCR t := by
  cases t with
  | nil =>
    have h : (A ++ [';']).getLast? ≠ some '\r' := by
      rw [List.getLast?_concat]
      decide
    unfold dropCR
    rw [if_neg h]
    have h' : ([] : Str).getLast? ≠ some '\r' := by decide
    rw [if_neg h']
  | cons c cs =>
    have hl : (A ++ ';' :: c :: cs).getLast? = (c :: cs).getLast? := by
      rw [List.getLast?_append_of_ne_nil _ (by simp), List.getLast?_cons_cons]
    have hd : (A ++ ';' :: c :: cs).dropLast = A ++ ';' :: (c :: cs).dropLast := by
      rw [List.dropLast_append_of_ne_nil _ (by simp),
        List.dropLast_cons_of_ne_nil (by simp)]
    unfold dropCR
    rw [hl, hd]
    split <;> rfl

theorem dropCR_of_last_not_space (A s : Str) (hne : s ≠ [])
    (h : ∀ c ∈ s.getLast?, isSpace c = false) : dropCR (A ++ s) = A ++ s := by
  have hl : (A ++ s).getLast? ≠ some '\r' := by
    rw [List.getLast?_append_of_ne_nil _ hne]
    intro hcr
    have := h '\r' hcr
    revert this
    decide
  unfold dropCR
  rw [if_neg hl]

/-- The line a path gives, with its annotation, after `dropCR`: the same path
with an annotation. -/
theorem dropCR_line (pre path : Str) (t : Option Str) (hne : path ≠ [])
    (hspace : noOuterSpace path) :
    ∃ t', dropCR (pre ++ (path ++ annotationText t)) = pre ++ (path ++ annotationText t') := by
  cases t with
  | none =>
    refine ⟨none, ?_⟩
    simp only [annotationText, List.append_nil]
    exact dropCR_of_last_not_space pre path hne hspace.2
  | some t =>
    refine ⟨some (dropCR t), ?_⟩
    simp only [annotationText]
    rw [← List.append_assoc, dropCR_append_semicolon, List.append_assoc]

theorem NewScanner_single_line (content line : Str) (hline : rawLines content = [line])
    (hshort : byteLen line < MaxScanTokenSize) :
    NewScanner content = ⟨[dropCR line], none⟩ := by
  unfold NewScanner
  rw [hline]
  simp only [scanTokens, hshort, if_true]

theorem marker_path_ne_nil (x a : Str) : x ++ marker ++ a ≠ [] := by
  intro h
  have := congrArg List.length h
  simp [marker] at this

theorem HasPrefix_of_dropCR (raw pre : Str) (h : HasPrefix (dropCR raw) pre = true) :
    HasPrefix raw pre = true := by
  unfold dropCR at h
  split at h
  · have h1 : pre <+: raw.dropLast := List.isPrefixOf_iff_prefix.mp h
    exact List.isPrefixOf_iff_prefix.mpr (h1.trans (List.dropLast_prefix raw))
  · exact h

theorem recognized_dropCR (raw : Str) (h : recognized raw = false) :
    recognized (dropCR raw) = false := by
  simp only [recognized, Bool.or_eq_false_iff] at h ⊢
  constructor
  · cases hd : HasPrefix (dropCR raw) dupPrefix with
    | false => rfl
    | true =>
      have := HasPrefix_of_dropCR raw dupPrefix hd
      rw [h.1] at this
      cases this
  · cases hs : HasPrefix (dropCR raw) skipPrefix with
    | false => rfl
    | true =>
      have := HasPrefix_of_dropCR raw skipPrefix hs
      rw [h.2] at this
      cases this

/-- The conditions of a well-formed path for `/x/files/flac/` followed by one
real element without outer white space and without `;`. -/
theorem album_path_conditions (a : Str) (hreal : realElement a) (houter : noOuterSpace a)
    (hsemi : ';' ∉ a) :
    Clean ("/x".toList ++ marker ++ a) = "/x".toList ++ marker ++ a ∧
    ';' ∉ "/x".toList ++ marker ++ a ∧
    noOuterSpace ("/x".toList ++ marker ++ a) ∧
    Split ("/x".toList ++ marker ++ a) marker = ["/x".toList, a] := by
  have hne : a ≠ [] := hreal.1
  have hsep : '/' ∉ a := hreal.2.2.2
  have hform : "/x".toList ++ marker ++ a =
      '/' :: ['/'].intercalate ["x".toList, "files".toList, "flac".toList, a] := by
    rw [intercalate_cons_cons, intercalate_cons_cons, intercalate_cons_cons,
      intercalate_single]
    rfl
  refine ⟨?_, ?_, ?_, ?_⟩
  · rw [hform]
    apply Clean_eq_self_of_rooted _ (by simp)
    intro e he
    simp only [List.mem_cons, List.mem_singleton, List.not_mem_nil, or_false] at he
    rcases he with rfl | rfl | rfl | rfl
    · decide
    · decide
    · decide
    · exact hreal
  · simp only [List.mem_append, not_or]
    exact ⟨⟨by decide, by decide⟩, hsemi⟩
  · constructor
    · intro c hc
      have e : ("/x".toList ++ marker ++ a).head? = some '/' := rfl
      rw [e] at hc
      rw [← Option.some.inj hc]
      decide
    · intro c hc
      rw [List.getLast?_append_of_ne_nil _ hne] at hc
      exact houter.2 c hc
  · exact Split_of_Index marker _ a marker_ne_nil (Index_x_marker a)
      ((Index_neg_iff_occurrences marker a).mpr
        (occurrences_of_head_not_mem '/' "files/flac/".toList a hsep))

theorem replicate_x_conditions (n : Nat) (hn : 3 ≤ n) :
    realElement (List.replicate n 'x') ∧ noOuterSpace (List.replicate n 'x') ∧
    ';' ∉ List.replicate n 'x' ∧ '\n' ∉ List.replicate n 'x' := by
  have hlen : (List.replicate n 'x').length = n := List.length_replicate _ _
  have hmem : ∀ c ∈ List.replicate n 'x', c = 'x' := fun c hc => List.eq_of_mem_replicate hc
  refine ⟨⟨?_, ?_, ?_, ?_⟩, ⟨?_, ?_⟩, ?_, ?_⟩
  · intro h
    rw [h] at hlen
    simp at hlen
    omega
  · intro h
    rw [h] at hlen
    simp at hlen
    omega
  · intro h
    rw [h] at hlen
    simp at hlen
    omega
  · intro h
    have := hmem _ h
    revert this
    decide
  · intro c hc
    rw [hmem c (List.mem_of_mem_head? hc)]
    decide
  · intro c hc
    rw [hmem c (List.mem_of_mem_getLast? hc)]
    decide
  · intro h
    have := hmem _ h
    revert this
    decide
  · intro h
    have := hmem _ h
    revert this
    decide

set_option maxRecDepth 100000 in
/-- C1, the claim as stated fails: the path `/x/files/flac/album1` meets the
conditions of the claim, and the file whose only line is
`skip /x/files/flac/album1;` followed by an annotation of 65536 letters is
read without failure of the underlying reads; `ParseSkippedAlbums` returns no
entry but the error that wraps `bufio.ErrTooLong`. -/
theorem long_annotation_gives_read_error :
    Clean ("/x".toList ++ marker ++ "album1".toList) =
      "/x".toList ++ marker ++ "album1".toList ∧
    ';' ∉ "/x".toList ++ marker ++ "album1".toList ∧
    noOuterSpace ("/x".toList ++ marker ++ "album1".toList) ∧
    Split ("/x".toList ++ marker ++ "album1".toList) marker =
      ["/x".toList, "album1".toList] ∧
    rawLines (skipPrefix ++ ("/x".toList ++ marker ++ "album1".toList ++
        annotationText (some (List.replicate 65536 'x')))) =
      [skipPrefix ++ ("/x".toList ++ marker ++ "album1".toList ++
        annotationText (some (List.replicate 65536 'x')))] ∧
    (New "/x/files/flac".toList).ParseSkippedAlbums
        (fun _ => .ok (NewScanner (skipPrefix ++ ("/x".toList ++ marker ++
          "album1".toList ++ annotationText (some (List.replicate 65536 'x'))))))
        "beet.log".toList =
      .returned none (some ⟨"error reading log file".toList, .ErrTooLong⟩) := by
  have hx := replicate_x_conditions 65536 (by omega)
  have e : skipPrefix ++ ("/x".toList ++ marker ++ "album1".toList ++
      annotationText (some (List.replicate 65536 'x'))) =
      "skip /x/files/flac/album1;".toList ++ List.replicate 65536 'x' := rfl
  have hne : "skip /x/files/flac/album1;".toList ++ List.replicate 65536 'x' ≠ [] := by
    intro h
    exact absurd (List.append_eq_nil.mp h).1 (by decide)
  have hnl : '\n' ∉ "skip /x/files/flac/album1;".toList ++ List.replicate 65536 'x' := by
    rw [List.mem_append, not_or]
    exact ⟨by decide, hx.2.2.2⟩
  refine ⟨by decide, by decide, by decide, by decide, ?_, ?_⟩
  · rw [e]
    exact rawLines_of_no_newline _ hne hnl
  · rw [e]
    apply ParseSkippedAlbums_of_long_line _ _ _ hne hnl
    rw [byteLen_append, byteLen_replicate_x]
    have : MaxScanTokenSize = 65536 := rfl
    omega

/-- C1, amended: for a directory prefix `x` and an album name `a` whose path
`x ++ "/files/flac/" ++ a` is in clean form, has no `;`, has no white space at
either end and splits at the marker into exactly `x` and `a`, a file that is
read without failure, whose only line is `"skip " ++ path` followed by nothing
or by `;` and any annotation, and whose line is shorter than
`MaxScanTokenSize` = 65536 bytes, makes `ParseSkippedAlbums` return the nil
error and the one-entry map `a ↦ "no strong match"`. -/
theorem skip_line_file_maps_album_to_no_strong_match (p : Parser) (fs : FileSystem)
    (logFile content x a : Str) (t : Option Str)
    (hclean : Clean (x ++ marker ++ a) = x ++ marker ++ a)
    (hsemi : ';' ∉ x ++ marker ++ a)
    (hspace : noOuterSpace (x ++ marker ++ a))
    (hsplit : Split (x ++ marker ++ a) marker = [x, a])
    (hline : rawLines content = [skipPrefix ++ (x ++ marker ++ a ++ annotationText t)])
    (hshort : byteLen (skipPrefix ++ (x ++ marker ++ a ++ annotationText t)) <
      MaxScanTokenSize)
    (hfile : fs logFile = .ok (NewScanner content)) :
    p.ParseSkippedAlbums fs logFile =
      .returned (some [(a, "no strong match".toList)]) none := by
  obtain ⟨t', ht'⟩ := dropCR_line skipPrefix (x ++ marker ++ a) t
    (marker_path_ne_nil x a) hspace
  rw [NewScanner_single_line content _ hline hshort, ht'] at hfile
  exact scan_of_delivered_skip_line p fs logFile x a t' hclean hsemi hspace hsplit hfile

set_option maxRecDepth 100000 in
/-- The file whose only line is `skip /x/files/flac/album1; already in library`,
ended by a carriage return and a newline. -/
theorem skip_line_file_maps_album_to_no_strong_match_witness :
    (New "/x/files/flac".toList).ParseSkippedAlbums
        (fun _ => .ok (NewScanner
          "skip /x/files/flac/album1; already in library\r\n".toList))
        "beet.log".toList =
      .returned (some [("album1".toList, "no strong match".toList)]) none :=
  skip_line_file_maps_album_to_no_strong_match (New "/x/files/flac".toList)
    (fun _ => .ok (NewScanner "skip /x/files/flac/album1; already in library\r\n".toList))
    "beet.log".toList "skip /x/files/flac/album1; already in library\r\n".toList
    "/x".toList "album1".toList (some " already in library\r".toList)
    (by decide) (by decide) (by decide) (by decide) (by decide) (by decide) rfl

/-- C2, the claim as stated fails: the path `/x/files/flac/` followed by 65536
letters `x` is in clean form, has no `;`, no outer white space and splits at
the marker into `/x` and the album name; the file whose only line is
`duplicate-skip ` followed by that path is read without failure of the
underlying reads, and `ParseSkippedAlbums` returns no entry but the error that
wraps `bufio.ErrTooLong`. -/
theorem long_duplicate_path_gives_read_error :
    Clean ("/x".toList ++ marker ++ List.replicate 65536 'x') =
      "/x".toList ++ marker ++ List.replicate 65536 'x' ∧
    ';' ∉ "/x".toList ++ marker ++ List.replicate 65536 'x' ∧
    noOuterSpace ("/x".toList ++ marker ++ List.replicate 65536 'x') ∧
    Split ("/x".toList ++ marker ++ List.replicate 65536 'x') marker =
      ["/x".toList, List.replicate 65536 'x'] ∧
    rawLines (dupPrefix ++ ("/x".toList ++ marker ++ List.replicate 65536 'x')) =
      [dupPrefix ++ ("/x".toList ++ marker ++ List.replicate 65536 'x')] ∧
    (New "/x/files/flac".toList).ParseSkippedAlbums
        (fun _ => .ok (NewScanner
          (dupPrefix ++ ("/x".toList ++ marker ++ List.replicate 65536 'x'))))
        "beet.log".toList =
      .returned none (some ⟨"error reading log file".toList, .ErrTooLong⟩) := by
  have hx := replicate_x_conditions 65536 (by omega)
  obtain ⟨h1, h2, h3, h4⟩ := album_path_conditions _ hx.1 hx.2.1 hx.2.2.1
  have e : dupPrefix ++ ("/x".toList ++ marker ++ List.replicate 65536 'x') =
      "duplicate-skip /x/files/flac/".toList ++ List.replicate 65536 'x' := rfl
  have hne : "duplicate-skip /x/files/flac/".toList ++ List.replicate 65536 'x' ≠ [] := by
    intro h
    exact absurd (List.append_eq_nil.mp h).1 (by decide)
  have hnl : '\n' ∉ "duplicate-skip /x/files/flac/".toList ++ List.replicate 65536 'x' := by
    rw [List.mem_append, not_or]
    exact ⟨by decide, hx.2.2.2⟩
  refine ⟨h1, h2, h3, h4, ?_, ?_⟩
  · rw [e]
    exact rawLines_of_no_newline _ hne hnl
  · rw [e]
    apply ParseSkippedAlbums_of_long_line _ _ _ hne hnl
    rw [byteLen_append, byteLen_replicate_x]
    have : MaxScanTokenSize = 65536 := rfl
    omega

/-- C2, amended: for a directory prefix `x` and an album name `a` whose path
`x ++ "/files/flac/" ++ a` is in clean form, has no `;`, has no white space at
either end and splits at the marker into exactly `x` and `a`, a file that is
read without failure, whose only line is `"duplicate-skip " ++ path`, and
whose line is shorter than `MaxScanTokenSize` = 65536 bytes, makes
`ParseSkippedAlbums` return the nil error and the one-entry map
`a ↦ "duplicate"`. -/
theorem duplicate_skip_line_file_maps_album_to_duplicate (p : Parser) (fs : FileSystem)
    (logFile content x a : Str)
    (hclean : Clean (x ++ marker ++ a) = x ++ marker ++ a)
    (hsemi : ';' ∉ x ++ marker ++ a)
    (hspace : noOuterSpace (x ++ marker ++ a))
    (hsplit : Split (x ++ marker ++ a) marker = [x, a])
    (hline : rawLines content = [dupPrefix ++ (x ++ marker ++ a)])
    (hshort : byteLen (dupPrefix ++ (x ++ marker ++ a)) < MaxScanTokenSize)
    (hfile : fs logFile = .ok (NewScanner content)) :
    p.ParseSkippedAlbums fs logFile =
      .returned (some [(a, "duplicate".toList)]) none := by
  rw [NewScanner_single_line content _ hline hshort,
    dropCR_of_last_not_space dupPrefix _ (marker_path_ne_nil x a) hspace.2] at hfile
  exact scan_of_delivered_duplicate_skip_line p fs logFile x a hclean hsemi hspace hsplit hfile

set_option maxRecDepth 100000 in
/-- The file whose only line is `duplicate-skip /x/files/flac/album1`, ended
by a newline. -/
theorem duplicate_skip_line_file_maps_album_to_duplicate_witness :
    (New "/x/files/flac".toList).ParseSkippedAlbums
        (fun _ => .ok (NewScanner "duplicate-skip /x/files/flac/album1\n".toList))
        "beet.log".toList =
      .returned (some [("album1".toList, "duplicate".toList)]) none :=
  duplicate_skip_line_file_maps_album_to_duplicate (New "/x/files/flac".toList)
    (fun _ => .ok (NewScanner "duplicate-skip /x/files/flac/album1\n".toList))
    "beet.log".toList "duplicate-skip /x/files/flac/album1\n".toList
    "/x".toList "album1".toList
    (by decide) (by decide) (by decide) (by decide) (by decide) (by decide) rfl

/-- C10, the claim as stated fails: the file whose only line is `added `
followed by 65536 letters `x` has no line that starts with `"skip "` or
`"duplicate-skip "` and is read without failure of the underlying reads, yet
`ParseSkippedAlbums` returns the error that wraps `bufio.ErrTooLong`. -/
theorem long_unrecognized_line_gives_read_error :
    (∀ l ∈ rawLines ("added ".toList ++ List.replicate 65536 'x'), recognized l = false) ∧
    (New "/x/files/flac".toList).ParseSkippedAlbums
        (fun _ => .ok (NewScanner ("added ".toList ++ List.replicate 65536 'x')))
        "beet.log".toList =
      .returned none (some ⟨"error reading log file".toList, .ErrTooLong⟩) := by
  have hx := replicate_x_conditions 65536 (by omega)
  have hne : "added ".toList ++ List.replicate 65536 'x' ≠ [] := by
    intro h
    exact absurd (List.append_eq_nil.mp h).1 (by decide)
  have hnl : '\n' ∉ "added ".toList ++ List.replicate 65536 'x' := by
    rw [List.mem_append, not_or]
    exact ⟨by decide, hx.2.2.2⟩
  constructor
  · rw [rawLines_of_no_newline _ hne hnl]
    intro l hl
    rw [List.mem_singleton] at hl
    subst hl
    have e : "added ".toList ++ List.replicate 65536 'x' =
        'a' :: ("dded ".toList ++ List.replicate 65536 'x') := rfl
    have ed : dupPrefix = 'd' :: "uplicate-skip ".toList := rfl
    have es : skipPrefix = 's' :: "kip ".toList := rfl
    rw [e]
    simp [recognized, HasPrefix, ed, es, List.isPrefixOf]
  · apply ParseSkippedAlbums_of_long_line _ _ _ hne hnl
    rw [byteLen_append, byteLen_replicate_x]
    have : MaxScanTokenSize = 65536 := rfl
    omega

/-- C10, amended: for a file that is read without failure, in which no line
starts with `"skip "` or `"duplicate-skip "` and every line is shorter than
`MaxScanTokenSize` = 65536 bytes (the empty file among them),
`ParseSkippedAlbums` does not panic and returns a map with no entry and the
nil error. -/
theorem no_qualifying_line_file_gives_empty_result (p : Parser) (fs : FileSystem)
    (logFile content : Str)
    (hfile : fs logFile = .ok (NewScanner content))
    (hshort : ∀ l ∈ rawLines content, byteLen l < MaxScanTokenSize)
    (hnone : ∀ l ∈ rawLines content, recognized l = false) :
    p.ParseSkippedAlbums fs logFile = .returned (some []) none := by
  have hscan : NewScanner content = ⟨(rawLines content).map dropCR, none⟩ :=
    scanTokens_of_short _ hshort
  apply scan_of_delivered_unrecognized_lines p fs logFile _ hfile
  · rw [hscan]
  · rw [hscan]
    intro l hl
    simp only [List.mem_map] at hl
    obtain ⟨raw, hraw, rfl⟩ := hl
    exact recognized_dropCR raw (hnone raw hraw)

set_option maxRecDepth 100000 in
/-- A file with two `added` lines, and the empty file. -/
theorem no_qualifying_line_file_gives_empty_result_witness :
    (New "/x/files/flac".toList).ParseSkippedAlbums
        (fun _ => .ok (NewScanner
          "added /x/files/flac/album1\r\nadded /x/files/flac/album2".toList))
        "beet.log".toList = .returned (some []) none ∧
    (New "/x/files/flac".toList).ParseSkippedAlbums
        (fun _ => .ok (NewScanner [])) "beet.log".toList = .returned (some []) none :=
  ⟨no_qualifying_line_file_gives_empty_result (New "/x/files/flac".toList)
      (fun _ => .ok (NewScanner
        "added /x/files/flac/album1\r\nadded /x/files/flac/album2".toList))
      "beet.log".toList
      "added /x/files/flac/album1\r\nadded /x/files/flac/album2".toList
      rfl (by decide) (by decide),
    no_qualifying_line_file_gives_empty_result (New "/x/files/flac".toList)
      (fun _ => .ok (NewScanner [])) "beet.log".toList [] rfl (by decide) (by decide)⟩

end Beetman
